import Mathlib

/-!
Verification of the monotestrunner repository against its specification.

The development shallowly embeds the JavaScript source:
* coverage-flag state machine (`src/views/state.js`): `getCoverageMode`,
  `cycleCoverage`, `togglePackageCoverage`;
* lcov coverage parser and per-line status (`src/coverage.js`):
  `parseLcovDetailed`, `getLineCoverageStatus`;
* smart-scroll adjustment of the tests screen (`src/views/screens/tests.js`,
  `renderFullList`);
* command-template resolution (`src/views/interactive.js`, `resolveCommand`);
* the run scheduler (`src/views/interactive.js`: `runPkg`, `onPkgComplete`,
  `checkPendingRunAll`, `runAllNow`, `runAll`, and the launch/close behaviour
  of `runPackageTests`);
* the JUnit test-report parser (`src/parsers.js`).

JavaScript objects (string-keyed, insertion ordered, unique keys) are embedded
as association lists `List (String × α)`; JS `Map` likewise.  JS numbers
produced by `parseInt` are embedded as `Option Int`, `none` standing for `NaN`.
-/

namespace Monotestrunner

/-! ## JS object / Map primitives -/

/-- Read a property: `obj[key]`.  `none` models `undefined`. -/
def objGet {α : Type} : List (String × α) → String → Option α
  | [], _ => none
  | (k, v) :: rest, key => if k = key then some v else objGet rest key

/-- Write a property: `obj[key] = v`.  Updates the first (unique) binding in
place, appends when absent — matching JS property-insertion order. -/
def objSet {α : Type} : List (String × α) → String → α → List (String × α)
  | [], key, v => [(key, v)]
  | (k, v0) :: rest, key, v =>
    if k = key then (key, v) :: rest else (k, v0) :: objSet rest key v

/-- `Object.assign(target, src)`: every binding of `src` written onto
`target`, left to right. -/
def objAssign {α : Type} (target src : List (String × α)) : List (String × α) :=
  src.foldl (fun t kv => objSet t kv.1 kv.2) target

/-- The keys of an object, in insertion order (`Object.keys`). -/
def objKeys {α : Type} (o : List (String × α)) : List String := o.map (·.1)

/-! ## Coverage flags (`src/views/state.js`)

`flags` maps package name to its per-package coverage boolean; `snapshot`
stores a prior mixed configuration for the `none → restore` transition. -/

/-- `getCoverageMode(flags)`: `'all' | 'none' | 'some'` over the values. -/
def getCoverageMode (flags : List (String × Bool)) : String :=
  let values := flags.map (·.2)
  if values.length = 0 then "none"
  else if values.all (fun v => v) then "all"
  else if values.all (fun v => !v) then "none"
  else "some"

/-- The `some` branch of `cycleCoverage`: turn on every off package, returning
the updated flags and the names pushed to `changedToOn` (in key order). -/
def turnAllOn : List (String × Bool) → List (String × Bool) × List String
  | [] => ([], [])
  | (k, v) :: rest =>
    let (rest', names) := turnAllOn rest
    if v then ((k, v) :: rest', names) else ((k, true) :: rest', k :: names)

/-- The `all` branch of `cycleCoverage`: every flag set to `false`. -/
def turnAllOff (flags : List (String × Bool)) : List (String × Bool) :=
  flags.map (fun kv => (kv.1, false))

/-- The `none` branch of `cycleCoverage`: `flags[name] = !!snapshot[name]`,
collecting the names that changed from off to on. -/
def restoreFromSnapshot (snapshot : List (String × Bool)) :
    List (String × Bool) → List (String × Bool) × List String
  | [] => ([], [])
  | (k, was) :: rest =>
    let nv := (objGet snapshot k).getD false
    let (rest', names) := restoreFromSnapshot snapshot rest
    ((k, nv) :: rest', if !was && nv then k :: names else names)

/-- `cycleCoverage(flags, snapshot)` (state.js 78–108).  Returns the mutated
`flags`, the mutated `snapshot`, and `changedToOn`. -/
def cycleCoverage (flags snapshot : List (String × Bool)) :
    List (String × Bool) × List (String × Bool) × List String :=
  let mode := getCoverageMode flags
  if mode = "some" then
    ((turnAllOn flags).1, objAssign snapshot flags, (turnAllOn flags).2)
  else if mode = "all" then
    (turnAllOff flags, snapshot, [])
  else
    ((restoreFromSnapshot snapshot flags).1, snapshot, (restoreFromSnapshot snapshot flags).2)

/-- `togglePackageCoverage(pkgName, flags, snapshot)` (state.js 119–126).
Returns the mutated `flags`, the mutated `snapshot`, and the new value. -/
def togglePackageCoverage (pkgName : String) (flags snapshot : List (String × Bool)) :
    List (String × Bool) × List (String × Bool) × Bool :=
  let newVal := !((objGet flags pkgName).getD false)
  let flags' := objSet flags pkgName newVal
  let snapshot' :=
    if getCoverageMode flags' = "some" then objAssign snapshot flags' else snapshot
  (flags', snapshot', newVal)

/-- `createCoverageFlags(packages, initialValue)` (state.js 44–53): every
package gets `initialValue`; the snapshot starts as a copy. -/
def createCoverageFlags (packages : List String) (initialValue : Bool) :
    List (String × Bool) × List (String × Bool) :=
  let flags := packages.map (fun n => (n, initialValue))
  (flags, flags)

/-! ## Lemmas about the object primitives -/

theorem objGet_objSet_self {α : Type} (o : List (String × α)) (k : String) (v : α) :
    objGet (objSet o k v) k = some v := by
  induction o with
  | nil => simp [objSet, objGet]
  | cons kv rest ih =>
    by_cases h : kv.1 = k <;> simp [objSet, objGet, h, ih]

theorem objGet_objSet_other {α : Type} (o : List (String × α)) (k k' : String) (v : α)
    (hne : k' ≠ k) : objGet (objSet o k v) k' = objGet o k' := by
  induction o with
  | nil => simp [objSet, objGet, Ne.symm hne]
  | cons kv rest ih =>
    obtain ⟨k0, v0⟩ := kv
    by_cases h : k0 = k
    · simp [objSet, objGet, h, Ne.symm hne]
    · by_cases h' : k0 = k' <;> simp [objSet, objGet, h, h', hne, ih]

theorem objSet_eq_self {α : Type} (o : List (String × α)) (k : String) (v : α)
    (h : objGet o k = some v) : objSet o k v = o := by
  induction o with
  | nil => simp [objGet] at h
  | cons kv rest ih =>
    obtain ⟨k0, v0⟩ := kv
    by_cases hk : k0 = k
    · subst hk
      simp [objGet] at h
      simp [objSet, h]
    · simp [objGet, hk] at h
      simp [objSet, hk, ih h]

theorem objGet_objAssign_not_mem {α : Type} (t src : List (String × α)) (k : String)
    (h : k ∉ src.map (·.1)) : objGet (objAssign t src) k = objGet t k := by
  induction src generalizing t with
  | nil => simp [objAssign]
  | cons kv rest ih =>
    simp only [List.map_cons, List.mem_cons] at h
    push_neg at h
    have hstep : objAssign t (kv :: rest) = objAssign (objSet t kv.1 kv.2) rest := by
      simp [objAssign, List.foldl_cons]
    rw [hstep, ih _ h.2]
    exact objGet_objSet_other t kv.1 k kv.2 h.1

theorem objGet_objAssign_mem {α : Type} (t src : List (String × α)) (k : String) (v : α)
    (hnd : (src.map (·.1)).Nodup) (hmem : (k, v) ∈ src) :
    objGet (objAssign t src) k = some v := by
  induction src generalizing t with
  | nil => simp at hmem
  | cons kv rest ih =>
    have hstep : objAssign t (kv :: rest) = objAssign (objSet t kv.1 kv.2) rest := by
      simp [objAssign, List.foldl_cons]
    simp only [List.map_cons, List.nodup_cons] at hnd
    rcases List.mem_cons.mp hmem with heq | hrest
    · subst heq
      rw [hstep, objGet_objAssign_not_mem _ _ _ hnd.1, objGet_objSet_self]
    · rw [hstep]
      exact ih _ hnd.2 hrest

/-! ## Lemmas about the coverage-flag operations -/

theorem turnAllOn_fst (flags : List (String × Bool)) :
    (turnAllOn flags).1 = flags.map (fun kv => (kv.1, true)) := by
  induction flags with
  | nil => simp [turnAllOn]
  | cons kv rest ih =>
    obtain ⟨k, v⟩ := kv
    cases v <;> simp [turnAllOn, ih]

theorem turnAllOn_snd (flags : List (String × Bool)) :
    (turnAllOn flags).2 = (flags.filter (fun kv => !kv.2)).map (·.1) := by
  induction flags with
  | nil => simp [turnAllOn]
  | cons kv rest ih =>
    obtain ⟨k, v⟩ := kv
    cases v <;> simp [turnAllOn, ih, List.filter_cons]

theorem restoreFromSnapshot_fst (snapshot flags : List (String × Bool)) :
    (restoreFromSnapshot snapshot flags).1 =
      flags.map (fun kv => (kv.1, (objGet snapshot kv.1).getD false)) := by
  induction flags with
  | nil => simp [restoreFromSnapshot]
  | cons kv rest ih => simp [restoreFromSnapshot, ih]

theorem restoreFromSnapshot_snd (snapshot flags : List (String × Bool)) :
    (restoreFromSnapshot snapshot flags).2 =
      (flags.filter (fun kv => !kv.2 && (objGet snapshot kv.1).getD false)).map (·.1) := by
  induction flags with
  | nil => simp [restoreFromSnapshot]
  | cons kv rest ih =>
    obtain ⟨k, v⟩ := kv
    by_cases hv : (!v && (objGet snapshot k).getD false) = true <;>
      simp [restoreFromSnapshot, ih, List.filter_cons, hv]

theorem getCoverageMode_some (flags : List (String × Bool))
    (hon : ∃ p ∈ flags, p.2 = true) (hoff : ∃ p ∈ flags, p.2 = false) :
    getCoverageMode flags = "some" := by
  obtain ⟨p, hp, hpv⟩ := hon
  obtain ⟨q, hq, hqv⟩ := hoff
  have hne : flags.length ≠ 0 := by
    cases flags with
    | nil => simp at hp
    | cons _ _ => simp
  have hall : (flags.map (·.2)).all (fun v => v) = false := by
    simp only [List.all_eq_false]
    exact ⟨q.2, List.mem_map_of_mem _ hq, by simp [hqv]⟩
  have hnone : (flags.map (·.2)).all (fun v => !v) = false := by
    simp only [List.all_eq_false]
    exact ⟨p.2, List.mem_map_of_mem _ hp, by simp [hpv]⟩
  simp [getCoverageMode, hne, hall, hnone]

theorem getCoverageMode_all (flags : List (String × Bool))
    (hne : flags ≠ []) (hall : ∀ p ∈ flags, p.2 = true) :
    getCoverageMode flags = "all" := by
  have hlen : flags.length ≠ 0 := by simpa using (List.length_pos.mpr hne).ne'
  have : (flags.map (·.2)).all (fun v => v) = true := by
    simp only [List.all_eq_true]
    intro v hv
    obtain ⟨p, hp, hpe⟩ := List.mem_map.mp hv
    simp [← hpe, hall p hp]
  simp [getCoverageMode, hlen, this]

theorem getCoverageMode_none (flags : List (String × Bool))
    (hall : ∀ p ∈ flags, p.2 = false) :
    getCoverageMode flags = "none" := by
  by_cases hne : flags.length = 0
  · simp [getCoverageMode, hne]
  · have hoff : (flags.map (·.2)).all (fun v => !v) = true := by
      simp only [List.all_eq_true]
      intro v hv
      obtain ⟨p, hp, hpe⟩ := List.mem_map.mp hv
      simp [← hpe, hall p hp]
    have hnotall : (flags.map (·.2)).all (fun v => v) = false := by
      cases flags with
      | nil => simp at hne
      | cons kv rest =>
        simp only [List.all_eq_false]
        exact ⟨kv.2, by simp, by simp [hall kv (by simp)]⟩
    simp [getCoverageMode, hne, hnotall, hoff]

/-! ## Claims C4, C8, C10: the coverage-flag state machine -/

/-- **C4** — Coverage-flag cycle round trip: from a mixed flag set, one
application of `cycleCoverage` turns every package on after snapshotting the
prior mixed configuration, a second turns every package off, and a third
restores exactly the original mixed configuration; each application returns
exactly the names of the packages whose flag changed from off to on. -/
theorem coverage_cycle_round_trip
    (flags snapshot : List (String × Bool))
    (hnd : (flags.map (·.1)).Nodup)
    (hon : ∃ p ∈ flags, p.2 = true) (hoff : ∃ p ∈ flags, p.2 = false) :
    ∀ f1 s1 r1 f2 s2 r2 f3 s3 r3,
      cycleCoverage flags snapshot = (f1, s1, r1) →
      cycleCoverage f1 s1 = (f2, s2, r2) →
      cycleCoverage f2 s2 = (f3, s3, r3) →
      (∀ p ∈ f1, p.2 = true) ∧
      (∀ p ∈ flags, objGet s1 p.1 = some p.2) ∧
      r1 = (flags.filter (fun kv => !kv.2)).map (·.1) ∧
      (∀ p ∈ f2, p.2 = false) ∧ r2 = [] ∧
      f3 = flags ∧
      r3 = (flags.filter (fun kv => kv.2)).map (·.1) := by
  intro f1 s1 r1 f2 s2 r2 f3 s3 r3 h1 h2 h3
  have hmode1 : getCoverageMode flags = "some" := getCoverageMode_some flags hon hoff
  have e1 : cycleCoverage flags snapshot
      = ((turnAllOn flags).1, objAssign snapshot flags, (turnAllOn flags).2) := by
    simp [cycleCoverage, hmode1]
  rw [e1] at h1
  simp only [Prod.mk.injEq] at h1
  obtain ⟨hf1, hs1, hr1⟩ := h1
  subst hf1; subst hs1; subst hr1
  have hflags_ne : flags ≠ [] := by
    obtain ⟨p, hp, _⟩ := hon
    exact List.ne_nil_of_mem hp
  have hall1 : ∀ p ∈ (turnAllOn flags).1, p.2 = true := by
    rw [turnAllOn_fst]
    intro p hp
    obtain ⟨q, _, rfl⟩ := List.mem_map.mp hp
    rfl
  have hsnap : ∀ p ∈ flags, objGet (objAssign snapshot flags) p.1 = some p.2 := by
    intro p hp
    exact objGet_objAssign_mem snapshot flags p.1 p.2 hnd (Prod.mk.eta ▸ hp)
  have hne1 : (turnAllOn flags).1 ≠ [] := by
    rw [turnAllOn_fst]
    simpa using hflags_ne
  have hmode2 : getCoverageMode (turnAllOn flags).1 = "all" :=
    getCoverageMode_all _ hne1 hall1
  have e2 : cycleCoverage (turnAllOn flags).1 (objAssign snapshot flags)
      = (turnAllOff (turnAllOn flags).1, objAssign snapshot flags, []) := by
    simp [cycleCoverage, hmode2]
  rw [e2] at h2
  simp only [Prod.mk.injEq] at h2
  obtain ⟨hf2, hs2, hr2⟩ := h2
  subst hf2; subst hs2; subst hr2
  have hall2 : ∀ p ∈ turnAllOff (turnAllOn flags).1, p.2 = false := by
    intro p hp
    obtain ⟨q, _, rfl⟩ := List.mem_map.mp hp
    rfl
  have hmode3 : getCoverageMode (turnAllOff (turnAllOn flags).1) = "none" :=
    getCoverageMode_none _ hall2
  have e3 : cycleCoverage (turnAllOff (turnAllOn flags).1) (objAssign snapshot flags)
      = ((restoreFromSnapshot (objAssign snapshot flags) (turnAllOff (turnAllOn flags).1)).1,
         objAssign snapshot flags,
         (restoreFromSnapshot (objAssign snapshot flags) (turnAllOff (turnAllOn flags).1)).2) := by
    simp [cycleCoverage, hmode3]
  rw [e3] at h3
  simp only [Prod.mk.injEq] at h3
  obtain ⟨hf3, hs3, hr3⟩ := h3
  subst hf3; subst hs3; subst hr3
  have hbase : turnAllOff (turnAllOn flags).1 = flags.map (fun kv => (kv.1, false)) := by
    rw [turnAllOn_fst, turnAllOff, List.map_map]
    rfl
  refine ⟨hall1, hsnap, turnAllOn_snd flags, hall2, rfl, ?_, ?_⟩
  · -- the third cycle restores the original mixed configuration
    rw [restoreFromSnapshot_fst, hbase, List.map_map]
    have : ∀ kv ∈ flags,
        ((fun kv => (kv.1, (objGet (objAssign snapshot flags) kv.1).getD false)) ∘
          fun kv => (kv.1, false)) kv = id kv := by
      intro kv hkv
      simp only [Function.comp_apply, hsnap kv hkv, Option.getD_some, id_eq]
    rw [List.map_congr_left this, List.map_id]
  · -- the third cycle reports exactly the packages that were on originally
    rw [restoreFromSnapshot_snd, hbase, List.filter_map, List.map_map]
    have hfil : ∀ kv ∈ flags,
        ((fun kv => !kv.2 && (objGet (objAssign snapshot flags) kv.1).getD false) ∘
          fun kv => (kv.1, false)) kv = kv.2 := by
      intro kv hkv
      simp only [Function.comp_apply, Bool.not_false, Bool.true_and, hsnap kv hkv,
        Option.getD_some]
    rw [List.filter_congr hfil]
    rfl

/-- Witness for C4: the spec's own example `{a:true, b:false, c:true}`; the
third application reports exactly the packages that were on in the original
mixed configuration. -/
theorem coverage_cycle_round_trip_witness :
    (["a", "c"] : List String)
      = ([("a", true), ("b", false), ("c", true)].filter (fun kv => kv.2)).map (·.1) :=
  (coverage_cycle_round_trip
    [("a", true), ("b", false), ("c", true)] [("a", false), ("b", false), ("c", false)]
    (by decide) (by decide) (by decide)
    [("a", true), ("b", true), ("c", true)] [("a", true), ("b", false), ("c", true)] ["b"]
    [("a", false), ("b", false), ("c", false)] [("a", true), ("b", false), ("c", true)] []
    [("a", true), ("b", false), ("c", true)] [("a", true), ("b", false), ("c", true)] ["a", "c"]
    (by decide) (by decide) (by decide)).2.2.2.2.2.2

theorem objSet_objSet {α : Type} (o : List (String × α)) (k : String) (a b : α) :
    objSet (objSet o k a) k b = objSet o k b := by
  induction o with
  | nil => simp [objSet]
  | cons kv rest ih =>
    obtain ⟨k0, v0⟩ := kv
    by_cases h : k0 = k <;> simp [objSet, h, ih]

/-- **C8** — With every per-package flag off and the stored snapshot also
falsy on every package (the initial state when coverage starts disabled),
`cycleCoverage` is a no-op returning the empty list: the all-off →
restore-snapshot transition cannot turn coverage on. -/
theorem cycle_all_off_noop (flags snapshot : List (String × Bool))
    (hoff : ∀ p ∈ flags, p.2 = false)
    (hsnap : ∀ p ∈ flags, (objGet snapshot p.1).getD false = false) :
    cycleCoverage flags snapshot = (flags, snapshot, []) := by
  have hmode : getCoverageMode flags = "none" := getCoverageMode_none flags hoff
  have e : cycleCoverage flags snapshot
      = ((restoreFromSnapshot snapshot flags).1, snapshot,
         (restoreFromSnapshot snapshot flags).2) := by
    simp [cycleCoverage, hmode]
  have h1 : (restoreFromSnapshot snapshot flags).1 = flags := by
    rw [restoreFromSnapshot_fst]
    have : ∀ kv ∈ flags, (kv.1, (objGet snapshot kv.1).getD false) = id kv := by
      intro kv hkv
      rw [hsnap kv hkv, id_eq, ← hoff kv hkv]
    rw [List.map_congr_left this, List.map_id]
  have h2 : (restoreFromSnapshot snapshot flags).2 = [] := by
    rw [restoreFromSnapshot_snd]
    have : ∀ kv ∈ flags, (!kv.2 && (objGet snapshot kv.1).getD false) = false := by
      intro kv hkv
      rw [hsnap kv hkv, Bool.and_false]
    rw [List.filter_congr this]
    simp
  rw [e, h1, h2]

/-- Witness for C8: the initial flag state of `createCoverageFlags` with
coverage disabled; the global cycle leaves everything off. -/
theorem cycle_all_off_noop_witness :
    cycleCoverage (createCoverageFlags ["a", "b"] false).1 (createCoverageFlags ["a", "b"] false).2
      = ((createCoverageFlags ["a", "b"] false).1, (createCoverageFlags ["a", "b"] false).2, []) :=
  cycle_all_off_noop _ _ (by decide) (by decide)

/-- **C10** — For a package present in the flag map, toggling its coverage
twice restores the flag map exactly (double toggle is the identity on the
flags), and each call returns the package's new flag value. -/
theorem toggle_twice_identity (flags snapshot : List (String × Bool))
    (name : String) (v : Bool) (hv : objGet flags name = some v) :
    ∀ f1 s1 r1 f2 s2 r2,
      togglePackageCoverage name flags snapshot = (f1, s1, r1) →
      togglePackageCoverage name f1 s1 = (f2, s2, r2) →
      f2 = flags ∧ r1 = !v ∧ r2 = v := by
  intro f1 s1 r1 f2 s2 r2 h1 h2
  have e1 : togglePackageCoverage name flags snapshot
      = (objSet flags name (!v),
         if getCoverageMode (objSet flags name (!v)) = "some" then
           objAssign snapshot (objSet flags name (!v)) else snapshot,
         !v) := by
    simp [togglePackageCoverage, hv]
  rw [e1] at h1
  simp only [Prod.mk.injEq] at h1
  obtain ⟨hf1, _, hr1⟩ := h1
  have hget1 : objGet f1 name = some (!v) := by
    rw [← hf1]
    exact objGet_objSet_self flags name (!v)
  have e2 : togglePackageCoverage name f1 s1
      = (objSet f1 name v,
         if getCoverageMode (objSet f1 name v) = "some" then
           objAssign s1 (objSet f1 name v) else s1,
         v) := by
    simp [togglePackageCoverage, hget1]
  rw [e2] at h2
  simp only [Prod.mk.injEq] at h2
  obtain ⟨hf2, _, hr2⟩ := h2
  refine ⟨?_, hr1.symm, hr2.symm⟩
  rw [← hf2, ← hf1, objSet_objSet, objSet_eq_self flags name v hv]

/-- Witness for C10: toggling `"b"` twice in `{a:true, b:false}` restores the
map and reports the new values `true` then `false`. -/
theorem toggle_twice_identity_witness :
    ([("a", true), ("b", false)] : List (String × Bool)) = [("a", true), ("b", false)] ∧
    true = !false ∧ false = false :=
  toggle_twice_identity [("a", true), ("b", false)] [("a", true), ("b", false)] "b" false
    (by decide)
    [("a", true), ("b", true)] [("a", true), ("b", false)] true
    [("a", true), ("b", false)] [("a", true), ("b", false)] false
    (by decide) (by decide)

/-! ## Claim C6: smart-scroll clamping (`src/views/screens/tests.js`,
`renderFullList` 150–163)

The renderer mutates `testsState.scrollOffset`; the function below returns the
mutated value.  JS numbers here are integers, embedded as `Int` (the incoming
`scrollOffset` is unconstrained). -/

/-- The smart-scroll adjustment of `renderFullList`: pull the window up to the
cursor, push it down when the cursor fell below, then clamp to
`[0, max(0, totalRows − contentRows)]`. -/
def smartScroll (totalRows contentRows selectedIndex scrollOffset : Int) : Int :=
  let cursorRow := selectedIndex
  let off1 := if cursorRow < scrollOffset then cursorRow else scrollOffset
  let off2 := if cursorRow ≥ off1 + contentRows then cursorRow - contentRows + 1 else off1
  let maxScroll := max 0 (totalRows - contentRows)
  max 0 (min off2 maxScroll)

/-- **C6** — After the smart-scroll adjustment, the selected row lies inside
the visible window `[scrollOffset, scrollOffset + visibleRows)` and the
offset is clamped to `[0, max(0, totalRows − visibleRows)]`, for any
`0 ≤ selectedIndex < totalRows` and `visibleRows > 0`. -/
theorem smart_scroll_clamps (totalRows contentRows selectedIndex scrollOffset : Int)
    (hsel : 0 ≤ selectedIndex) (hlt : selectedIndex < totalRows) (hvis : 0 < contentRows) :
    smartScroll totalRows contentRows selectedIndex scrollOffset ≤ selectedIndex ∧
    selectedIndex < smartScroll totalRows contentRows selectedIndex scrollOffset + contentRows ∧
    0 ≤ smartScroll totalRows contentRows selectedIndex scrollOffset ∧
    smartScroll totalRows contentRows selectedIndex scrollOffset
      ≤ max 0 (totalRows - contentRows) := by
  simp only [smartScroll]
  split_ifs <;> omega

/-- Witness for C6: a list of 10 rows, a 3-row window, the cursor on the last
row and the window at the top. -/
theorem smart_scroll_clamps_witness :
    smartScroll 10 3 9 0 ≤ 9 ∧ (9 : Int) < smartScroll 10 3 9 0 + 3 ∧
    (0 : Int) ≤ smartScroll 10 3 9 0 ∧ smartScroll 10 3 9 0 ≤ max 0 (10 - 3) :=
  smart_scroll_clamps 10 3 9 0 (by decide) (by decide) (by decide)

/-! ## Claims C5, C9: the lcov coverage parser (`src/coverage.js`)

`parseLcovDetailed` walks the report line by line; `SF:` opens a record,
`end_of_record` closes and emits it.  JS `Map`s are embedded as
insertion-ordered association lists; numbers produced by `parseInt` as
`Option Int` with `none` standing for `NaN` (JS `Map` key equality is
SameValueZero, under which `NaN` matches `NaN`, so `none` is a legitimate
key). -/

/-! String primitives, re-implemented by structural recursion on the
character list so that concrete runs of the embedded parsers reduce inside
the kernel. -/

/-- `pat` is a prefix of `s`. -/
def listStartsWith : List Char → List Char → Bool
  | [], _ => true
  | _ :: _, [] => false
  | p :: ps, c :: cs => p == c && listStartsWith ps cs

/-- JS `String.prototype.startsWith`. -/
def strStartsWith (s pre : String) : Bool :=
  listStartsWith pre.data s.data

/-- JS `String.prototype.slice(n)` for `n ≥ 0`. -/
def strDrop (s : String) (n : Nat) : String :=
  String.mk (s.data.drop n)

/-- Split on a single separator character (JS `String.prototype.split`). -/
def splitOnChar (sep : Char) : List Char → List (List Char)
  | [] => [[]]
  | c :: rest =>
    let r := splitOnChar sep rest
    if c == sep then [] :: r
    else
      match r with
      | seg :: segs => (c :: seg) :: segs
      | [] => [[c]]

/-- String-level wrapper of `splitOnChar`. -/
def strSplitOnChar (sep : Char) (s : String) : List String :=
  (splitOnChar sep s.data).map String.mk

/-- `Map.get`. -/
def mapGet {κ ν : Type} [DecidableEq κ] : List (κ × ν) → κ → Option ν
  | [], _ => none
  | (k, v) :: rest, key => if k = key then some v else mapGet rest key

/-- `Map.set`: update in place, append when absent. -/
def mapSet {κ ν : Type} [DecidableEq κ] : List (κ × ν) → κ → ν → List (κ × ν)
  | [], key, v => [(key, v)]
  | (k, v0) :: rest, key, v =>
    if k = key then (key, v) :: rest else (k, v0) :: mapSet rest key v

theorem mapGet_mem {κ ν : Type} [DecidableEq κ] (l : List (κ × ν)) (k : κ) (v : ν)
    (h : mapGet l k = some v) : (k, v) ∈ l := by
  induction l with
  | nil => simp [mapGet] at h
  | cons kv rest ih =>
    obtain ⟨k0, v0⟩ := kv
    by_cases hk : k0 = k
    · subst hk
      simp [mapGet] at h
      simp [h]
    · simp [mapGet, hk] at h
      exact List.mem_cons_of_mem _ (ih h)

/-- JS `parseInt(str, 10)`: skip leading whitespace, read an optional sign and
the longest decimal-digit prefix; `none` models `NaN`. -/
def jsParseInt (s : String) : Option Int :=
  let cs := s.data.dropWhile (fun c => c == ' ' || c == '\t' || c == '\n' || c == '\r')
  let signed : Int × List Char :=
    match cs with
    | '-' :: r => (-1, r)
    | '+' :: r => (1, r)
    | _ => (1, cs)
  let digits := signed.2.takeWhile (fun c => c.isDigit)
  if digits.isEmpty then none
  else some (signed.1 * (digits.foldl (fun acc c => acc * 10 + (c.toNat - 48)) 0 : Nat))

/-- Aggregated `BRDA:` data for one source line: `{ total, taken }`. -/
structure BranchAgg where
  total : Int
  taken : Int
deriving DecidableEq, Repr

/-- One per-file record of `parseLcovDetailed`. -/
structure LcovFile where
  file : String
  linesHit : Option Int
  linesTotal : Option Int
  branchesHit : Option Int
  branchesTotal : Option Int
  functionsHit : Option Int
  functionsTotal : Option Int
  lineHits : List (Option Int × Option Int)
  branchHits : List (Option Int × BranchAgg)
deriving DecidableEq, Repr

/-- The fresh record opened by an `SF:` line (coverage.js 30–37). -/
def freshLcov (f : String) : LcovFile :=
  { file := f, linesHit := some 0, linesTotal := some 0, branchesHit := some 0,
    branchesTotal := some 0, functionsHit := some 0, functionsTotal := some 0,
    lineHits := [], branchHits := [] }

/-- A `DA:line,count` line: `lineHits.set(parseInt(parts[0]), parseInt(parts[1]))`. -/
def applyDA (c : LcovFile) (line : String) : LcovFile :=
  let parts := strSplitOnChar ',' (strDrop line 3)
  { c with lineHits :=
      mapSet c.lineHits (jsParseInt (parts.getD 0 "")) (jsParseInt (parts.getD 1 "")) }

/-- A `BRDA:line,block,branch,taken` line: `-` (branch never evaluated) counts
toward `total` but never toward `taken`; so does a non-positive or `NaN`
count. -/
def applyBRDA (c : LcovFile) (line : String) : LcovFile :=
  let parts := strSplitOnChar ',' (strDrop line 5)
  let lineNum := jsParseInt (parts.getD 0 "")
  let takenRaw := parts.getD 3 ""
  let taken : Option Int := if takenRaw = "-" then some 0 else jsParseInt takenRaw
  let existing := (mapGet c.branchHits lineNum).getD { total := 0, taken := 0 }
  let takenPos : Bool := match taken with | some t => decide (0 < t) | none => false
  let agg : BranchAgg :=
    { total := existing.total + 1,
      taken := if takenPos then existing.taken + 1 else existing.taken }
  { c with branchHits := mapSet c.branchHits lineNum agg }

/-- The line loop of `parseLcovDetailed` (coverage.js 28–61): `SF:` opens a
record (silently dropping any record still open), data lines mutate the open
record, `end_of_record` emits it; everything outside an open record other
than `SF:` is ignored, and a record still open at the end of input is
discarded. -/
def parseLcovAux : Option LcovFile → List String → List LcovFile
  | _, [] => []
  | cur, line :: rest =>
    if strStartsWith line "SF:" then
      parseLcovAux (some (freshLcov (strDrop line 3))) rest
    else
      match cur with
      | none => parseLcovAux none rest
      | some c =>
        if strStartsWith line "DA:" then parseLcovAux (some (applyDA c line)) rest
        else if strStartsWith line "BRDA:" then parseLcovAux (some (applyBRDA c line)) rest
        else if strStartsWith line "LH:" then
          parseLcovAux (some { c with linesHit := jsParseInt (strDrop line 3) }) rest
        else if strStartsWith line "LF:" then
          parseLcovAux (some { c with linesTotal := jsParseInt (strDrop line 3) }) rest
        else if strStartsWith line "BRH:" then
          parseLcovAux (some { c with branchesHit := jsParseInt (strDrop line 4) }) rest
        else if strStartsWith line "BRF:" then
          parseLcovAux (some { c with branchesTotal := jsParseInt (strDrop line 4) }) rest
        else if strStartsWith line "FNH:" then
          parseLcovAux (some { c with functionsHit := jsParseInt (strDrop line 4) }) rest
        else if strStartsWith line "FNF:" then
          parseLcovAux (some { c with functionsTotal := jsParseInt (strDrop line 4) }) rest
        else if line = "end_of_record" then c :: parseLcovAux none rest
        else parseLcovAux (some c) rest

/-- `parseLcovDetailed` on the file contents (the `existsSync`/`readFileSync`
I/O wrapper is outside the embedding). -/
def parseLcovDetailed (content : String) : List LcovFile :=
  parseLcovAux none (strSplitOnChar '\n' content)

/-- `getLineCoverageStatus(lineNum, lineHits, branchHits)` (coverage.js
359–366).  `none` is the `null` result: line not instrumented. -/
def getLineCoverageStatus (lineNum : Option Int)
    (lineHits : List (Option Int × Option Int))
    (branchHits : List (Option Int × BranchAgg)) : Option String :=
  match mapGet lineHits lineNum with
  | none => none
  | some hits =>
    if hits = some 0 then some "uncovered"
    else
      match mapGet branchHits lineNum with
      | some branch => if branch.taken < branch.total then some "partial" else some "covered"
      | none => some "covered"

/-- The per-line status derivation exactly as the spec words it (for the
refinement claim C5): absent → not instrumented; count 0 → uncovered even
when branch data exists; count > 0 with a branch not fully taken → partial;
otherwise covered. -/
def specLineStatus (lineNum : Option Int)
    (lineHits : List (Option Int × Option Int))
    (branchHits : List (Option Int × BranchAgg)) : Option String :=
  match mapGet lineHits lineNum with
  | none => none
  | some hits =>
    if hits = some 0 then some "uncovered"
    else
      match hits, mapGet branchHits lineNum with
      | some v, some branch =>
        if 0 < v ∧ branch.taken < branch.total then some "partial" else some "covered"
      | _, _ => some "covered"

/-- **C5** — Per-line coverage status: `getLineCoverageStatus` realises the
spec's derivation (absent → not instrumented; count 0 → uncovered even when
branch data exists, uncovered overrides partial; count > 0 with a branch not
fully taken → partial; otherwise covered) for every mapping whose execution
counts are what a coverage report yields (non-negative numbers); and on the
concrete record `DA:5,0` with two `BRDA:5` entries of which one is taken,
`lineHits.get(5) == 0` and the status is `"uncovered"`, not `"partial"`. -/
theorem coverage_line_status
    (lineHits : List (Option Int × Option Int)) (branchHits : List (Option Int × BranchAgg))
    (ln : Option Int)
    (hnn : ∀ p ∈ lineHits, ∃ v : Int, p.2 = some v ∧ 0 ≤ v) :
    getLineCoverageStatus ln lineHits branchHits = specLineStatus ln lineHits branchHits ∧
    parseLcovDetailed "SF:src/a.js\nDA:5,0\nBRDA:5,0,0,1\nBRDA:5,0,1,-\nend_of_record"
      = [{ file := "src/a.js", linesHit := some 0, linesTotal := some 0, branchesHit := some 0,
           branchesTotal := some 0, functionsHit := some 0, functionsTotal := some 0,
           lineHits := [(some 5, some 0)],
           branchHits := [(some 5, { total := 2, taken := 1 })] }] ∧
    mapGet [((some 5 : Option Int), (some 0 : Option Int))] (some 5) = some (some 0) ∧
    getLineCoverageStatus (some 5) [(some 5, some 0)] [(some 5, { total := 2, taken := 1 })]
      = some "uncovered" := by
  refine ⟨?_, by decide, by decide, by decide⟩
  unfold getLineCoverageStatus specLineStatus
  cases e : mapGet lineHits ln with
  | none => rfl
  | some hits =>
    obtain ⟨v, hv, hvnn⟩ := hnn (ln, hits) (mapGet_mem _ _ _ e)
    simp only at hv
    subst hv
    by_cases hz : (some v : Option Int) = some 0
    · simp [hz]
    · have hvpos : 0 < v := by
        rcases lt_or_eq_of_le hvnn with h | h
        · exact h
        · exact absurd (by rw [← h]) hz
      cases eb : mapGet branchHits ln with
      | none => simp [hz]
      | some b => simp [hz, hvpos]

/-- Witness for C5: the claim's own record, with the parsed maps of that
record supplied for the universally quantified part. -/
theorem coverage_line_status_witness :
    getLineCoverageStatus (some 5) [(some 5, some 0)] [(some 5, { total := 2, taken := 1 })]
      = specLineStatus (some 5) [(some 5, some 0)] [(some 5, { total := 2, taken := 1 })] ∧
    parseLcovDetailed "SF:src/a.js\nDA:5,0\nBRDA:5,0,0,1\nBRDA:5,0,1,-\nend_of_record"
      = [{ file := "src/a.js", linesHit := some 0, linesTotal := some 0, branchesHit := some 0,
           branchesTotal := some 0, functionsHit := some 0, functionsTotal := some 0,
           lineHits := [(some 5, some 0)],
           branchHits := [(some 5, { total := 2, taken := 1 })] }] ∧
    mapGet [((some 5 : Option Int), (some 0 : Option Int))] (some 5) = some (some 0) ∧
    getLineCoverageStatus (some 5) [(some 5, some 0)] [(some 5, { total := 2, taken := 1 })]
      = some "uncovered" :=
  coverage_line_status [(some 5, some 0)] [(some 5, { total := 2, taken := 1 })] (some 5)
    (by decide)

/-- One data line keeps a record open and leaves its `file` field unchanged. -/
theorem parseLcovAux_data (c : LcovFile) (line : String) (rest : List String)
    (hsf : strStartsWith line "SF:" = false) (heor : line ≠ "end_of_record") :
    ∃ c' : LcovFile, c'.file = c.file ∧
      parseLcovAux (some c) (line :: rest) = parseLcovAux (some c') rest := by
  simp only [parseLcovAux, hsf, Bool.false_eq_true, if_false]
  split_ifs with h1 h2 h3 h4 h5 h6 h7 h8
  · exact ⟨applyDA c line, rfl, rfl⟩
  · exact ⟨applyBRDA c line, rfl, rfl⟩
  · exact ⟨{ c with linesHit := jsParseInt (strDrop line 3) }, rfl, rfl⟩
  · exact ⟨{ c with linesTotal := jsParseInt (strDrop line 3) }, rfl, rfl⟩
  · exact ⟨{ c with branchesHit := jsParseInt (strDrop line 4) }, rfl, rfl⟩
  · exact ⟨{ c with branchesTotal := jsParseInt (strDrop line 4) }, rfl, rfl⟩
  · exact ⟨{ c with functionsHit := jsParseInt (strDrop line 4) }, rfl, rfl⟩
  · exact ⟨{ c with functionsTotal := jsParseInt (strDrop line 4) }, rfl, rfl⟩
  · exact ⟨c, rfl, rfl⟩

/-- Outside an open record, every non-`SF:` line is ignored. -/
theorem parseLcovAux_none_skip (line : String) (rest : List String)
    (hsf : strStartsWith line "SF:" = false) :
    parseLcovAux none (line :: rest) = parseLcovAux none rest := by
  simp only [parseLcovAux, hsf, Bool.false_eq_true, if_false]

/-- Running an open record through terminator-free, `SF:`-free data lines
keeps it open and preserves its `file` field. -/
theorem parseLcovAux_body (body : List String) :
    (∀ l ∈ body, strStartsWith l "SF:" = false ∧ l ≠ "end_of_record") →
    ∀ (c : LcovFile) (rest : List String),
      ∃ c' : LcovFile, c'.file = c.file ∧
        parseLcovAux (some c) (body ++ "end_of_record" :: rest)
          = c' :: parseLcovAux none rest := by
  induction body with
  | nil =>
    intro _ c rest
    exact ⟨c, rfl, rfl⟩
  | cons l body' ih =>
    intro hbody c rest
    obtain ⟨hlsf, hleor⟩ := hbody l (by simp)
    obtain ⟨c1, hc1, hstep⟩ :=
      parseLcovAux_data c l (body' ++ "end_of_record" :: rest) hlsf hleor
    obtain ⟨c', hc', hrun⟩ := ih (fun l' hl' => hbody l' (by simp [hl'])) c1 rest
    exact ⟨c', by rw [hc', hc1], by rw [List.cons_append, hstep, hrun]⟩

/-- **C9** — A file record is emitted only when its `SF:` start line is
followed by an `end_of_record` terminator: data lines before the first `SF:`
are ignored; with no terminator anywhere nothing at all is emitted (in
particular a record still open at end of input is discarded); and an `SF:`
line whose body is followed by a terminator contributes exactly one record,
carrying the file name of the `SF:` line, in front of the parse of the
remaining input. -/
theorem lcov_record_termination :
    (∀ pre rest : List String, (∀ l ∈ pre, strStartsWith l "SF:" = false) →
        parseLcovAux none (pre ++ rest) = parseLcovAux none rest) ∧
    (∀ (cur : Option LcovFile) (lines : List String),
        (∀ l ∈ lines, l ≠ "end_of_record") → parseLcovAux cur lines = []) ∧
    (∀ (sfline : String) (body rest : List String),
        strStartsWith sfline "SF:" = true →
        (∀ l ∈ body, strStartsWith l "SF:" = false ∧ l ≠ "end_of_record") →
        ∃ rec : LcovFile, rec.file = strDrop sfline 3 ∧
          parseLcovAux none (sfline :: (body ++ "end_of_record" :: rest))
            = rec :: parseLcovAux none rest) := by
  refine ⟨?_, ?_, ?_⟩
  · intro pre rest hpre
    induction pre with
    | nil => rfl
    | cons l pre' ih =>
      rw [List.cons_append, parseLcovAux_none_skip l _ (hpre l (by simp))]
      exact ih fun l' hl' => hpre l' (by simp [hl'])
  · intro cur lines
    induction lines generalizing cur with
    | nil => intro _; rfl
    | cons l rest ih =>
      intro h
      have hrest : ∀ l' ∈ rest, l' ≠ "end_of_record" := fun l' hl' => h l' (by simp [hl'])
      by_cases hsf : strStartsWith l "SF:" = true
      · simp only [parseLcovAux, hsf, if_true]
        exact ih _ hrest
      · cases cur with
        | none =>
          rw [parseLcovAux_none_skip l rest (by simpa using hsf)]
          exact ih none hrest
        | some c =>
          obtain ⟨c', _, hstep⟩ :=
            parseLcovAux_data c l rest (by simpa using hsf) (h l (by simp))
          rw [hstep]
          exact ih _ hrest
  · intro sfline body rest hsf hbody
    have hopen : parseLcovAux none (sfline :: (body ++ "end_of_record" :: rest))
        = parseLcovAux (some (freshLcov (strDrop sfline 3))) (body ++ "end_of_record" :: rest) := by
      simp only [parseLcovAux, hsf, if_true]
    rw [hopen]
    obtain ⟨rec, hrec, hrun⟩ :=
      parseLcovAux_body body hbody (freshLcov (strDrop sfline 3)) rest
    exact ⟨rec, by rw [hrec]; rfl, hrun⟩

/-- Witness for C9: one terminated record with a single data line yields
exactly one emitted file. -/
theorem lcov_record_termination_witness :
    ∃ rec : LcovFile, rec.file = strDrop "SF:x.js" 3 ∧
      parseLcovAux none ("SF:x.js" :: (["DA:1,1"] ++ "end_of_record" :: []))
        = rec :: parseLcovAux none [] :=
  lcov_record_termination.2.2 "SF:x.js" ["DA:1,1"] [] (by decide) (by decide)

/-! ## Claim C7: command-template resolution (`src/views/interactive.js`,
`resolveCommand` 1079–1094)

Pass 1 replaces every section `/\[([^\]]*)\]/g`; its callback substitutes
`/\{(\w+)\}/g` inside the section while tracking whether every placeholder
resolved to a non-empty value, and yields the substituted text or the empty
string.  Pass 2 substitutes the remaining placeholders, empty for a missing
value.

A `{key}` match requires at least one `\w` character followed directly by
`}`; matches are non-overlapping and no match can begin inside another (the
matched span contains no `{` beyond its first character), so the global
left-to-right replace is computed here by a right fold: the substituted form
of `rest` always begins with the literal `key ++ '}'` of a match found at the
head, which `List.drop` then removes. -/

/-- JS `\w`: ASCII letters, digits, underscore. -/
def isWordChar (c : Char) : Bool :=
  ('a' ≤ c && c ≤ 'z') || ('A' ≤ c && c ≤ 'Z') || ('0' ≤ c && c ≤ '9') || c == '_'

/-- `values[key] ?? ''`, as characters. -/
def lookupValue (values : List (String × String)) (key : List Char) : List Char :=
  ((objGet values (String.mk key)).getD "").data

/-- Classify the text following a `{`: `some (key, after)` when `\{(\w+)\}`
matches here (a non-empty maximal word run directly followed by `}`). -/
def scanStep (rest : List Char) : Option (List Char × List Char) :=
  let key := rest.takeWhile isWordChar
  match rest.drop key.length with
  | '}' :: after => if key.isEmpty then none else some (key, after)
  | _ => none

/-- Pass 2: `withSections.replace(/\{(\w+)\}/g, (_m, key) => values[key] ?? '')`. -/
def substPlaceholders (values : List (String × String)) : List Char → List Char
  | [] => []
  | c :: rest =>
    let r := substPlaceholders values rest
    if c = '{' then
      match scanStep rest with
      | some (key, _) => lookupValue values key ++ r.drop (key.length + 1)
      | none => c :: r
    else c :: r

/-- The section callback's inner replace: substituted text together with the
`allPresent` flag (`if (!val) allPresent = false`). -/
def substInnerScan (values : List (String × String)) : List Char → List Char × Bool
  | [] => ([], true)
  | c :: rest =>
    let p := substInnerScan values rest
    if c = '{' then
      match scanStep rest with
      | some (key, _) =>
        let v := lookupValue values key
        (v ++ p.1.drop (key.length + 1), !v.isEmpty && p.2)
      | none => (c :: p.1, p.2)
    else (c :: p.1, p.2)

/-- The claim's side condition, as worded by the spec: every placeholder
referenced inside the text resolves to a non-empty value. -/
def allPresent (values : List (String × String)) : List Char → Bool
  | [] => true
  | c :: rest =>
    if c = '{' then
      match scanStep rest with
      | some (key, _) => !(lookupValue values key).isEmpty && allPresent values rest
      | none => allPresent values rest
    else allPresent values rest

/-- `allPresent ? resolved : ''` — the value a section is replaced with. -/
def sectionReplace (values : List (String × String)) (inner : List Char) : List Char :=
  if (substInnerScan values inner).2 then (substInnerScan values inner).1 else []

/-- Split at the first occurrence of `sep`: `some (before, after)`, or `none`
when `sep` does not occur (the `[^\]]*` body of the section regex). -/
def splitAtChar (sep : Char) : List Char → Option (List Char × List Char)
  | [] => none
  | c :: rest =>
    if c = sep then some ([], rest)
    else
      match splitAtChar sep rest with
      | some (inner, after) => some (c :: inner, after)
      | none => none

/-- Pass 1, fuelled (the jump past a section is not structural): a `[` with a
later `]` becomes the section replacement; a `[` with no closing `]` is
literal, as is everything else. -/
def processSectionsF (values : List (String × String)) : Nat → List Char → List Char
  | 0, s => s
  | _, [] => []
  | fuel + 1, c :: rest =>
    if c = '[' then
      match splitAtChar ']' rest with
      | some (inner, after) =>
        sectionReplace values inner ++ processSectionsF values fuel after
      | none => c :: processSectionsF values fuel rest
    else c :: processSectionsF values fuel rest

/-- Pass 1 with enough fuel (every step consumes at least one character). -/
def processSections (values : List (String × String)) (s : List Char) : List Char :=
  processSectionsF values s.length s

/-- `resolveCommand(template, values)`: sections first, then the remaining
top-level placeholders. -/
def resolveCommand (template : String) (values : List (String × String)) : String :=
  String.mk (substPlaceholders values (processSections values template.data))

/-! Lemmas for C7. -/

theorem substInnerScan_snd (values : List (String × String)) (s : List Char) :
    (substInnerScan values s).2 = allPresent values s := by
  induction s with
  | nil => rfl
  | cons c rest ih =>
    simp only [substInnerScan, allPresent]
    by_cases hc : c = '{'
    · cases e : scanStep rest with
      | none => simp [hc, e, ih]
      | some ka => simp [hc, e, ih]
    · simp [hc, ih]

theorem substInnerScan_fst (values : List (String × String)) (s : List Char) :
    (substInnerScan values s).1 = substPlaceholders values s := by
  induction s with
  | nil => rfl
  | cons c rest ih =>
    simp only [substInnerScan, substPlaceholders]
    by_cases hc : c = '{'
    · cases e : scanStep rest with
      | none => simp [hc, e, ih]
      | some ka => simp [hc, e, ih]
    · simp [hc, ih]

theorem splitAtChar_append (sep : Char) (inner after : List Char) (h : sep ∉ inner) :
    splitAtChar sep (inner ++ sep :: after) = some (inner, after) := by
  induction inner with
  | nil => simp [splitAtChar]
  | cons c inner' ih =>
    simp only [List.mem_cons] at h
    push_neg at h
    simp [splitAtChar, Ne.symm h.1, ih h.2]

theorem splitAtChar_eq (sep : Char) (s inner after : List Char)
    (h : splitAtChar sep s = some (inner, after)) : s = inner ++ sep :: after := by
  induction s generalizing inner after with
  | nil => simp [splitAtChar] at h
  | cons c rest ih =>
    by_cases hc : c = sep
    · subst hc
      simp only [splitAtChar, if_pos rfl] at h
      have h' : ([] : List Char) = inner ∧ rest = after := by simpa using h
      obtain ⟨h1, h2⟩ := h'
      subst h1; subst h2
      simp
    · simp only [splitAtChar, hc, if_false, reduceIte] at h
      cases e : splitAtChar sep rest with
      | none => rw [e] at h; simp at h
      | some ia =>
        obtain ⟨i, a⟩ := ia
        rw [e] at h
        have h' : c :: i = inner ∧ a = after := by simpa using h
        obtain ⟨h1, h2⟩ := h'
        subst h2
        rw [← h1, List.cons_append, ih i a e]

theorem processSectionsF_fuel (values : List (String × String)) :
    ∀ (fuel : Nat) (s : List Char), s.length ≤ fuel →
      processSectionsF values fuel s = processSections values s := by
  intro fuel
  induction fuel using Nat.strong_induction_on with
  | _ fuel ih =>
    intro s hs
    cases s with
    | nil => cases fuel <;> rfl
    | cons c rest =>
      cases fuel with
      | zero => simp at hs
      | succ f =>
        have hrest : rest.length ≤ f := by
          simpa using hs
        show processSectionsF values (f + 1) (c :: rest)
          = processSectionsF values (c :: rest).length (c :: rest)
        simp only [List.length_cons, processSectionsF]
        by_cases hc : c = '['
        · simp only [hc, if_true, reduceIte]
          cases e : splitAtChar ']' rest with
          | none =>
            dsimp only
            rw [ih f (Nat.lt_succ_self f) rest hrest]
            rw [ih rest.length (Nat.lt_succ_of_le hrest) rest (Nat.le_refl _)]
          | some ia =>
            obtain ⟨inner, after⟩ := ia
            have hshape := splitAtChar_eq ']' rest inner after e
            have hlen : rest.length = inner.length + 1 + after.length := by
              subst hshape
              simp [List.length_append]
              omega
            have hafter : after.length ≤ f := by omega
            dsimp only
            rw [ih f (Nat.lt_succ_self f) after hafter]
            rw [ih rest.length (Nat.lt_succ_of_le hrest) after (by omega)]
        · simp only [hc, if_false, reduceIte]
          rw [ih f (Nat.lt_succ_self f) rest hrest]
          rw [ih rest.length (Nat.lt_succ_of_le hrest) rest (Nat.le_refl _)]

/-- A non-`[` head character is literal under pass 1. -/
theorem processSections_cons (values : List (String × String)) (c : Char) (rest : List Char)
    (hc : c ≠ '[') :
    processSections values (c :: rest) = c :: processSections values rest := by
  show processSectionsF values (c :: rest).length (c :: rest) = _
  simp only [List.length_cons, processSectionsF, hc, if_false, reduceIte]
  exact congrArg _ (processSectionsF_fuel values rest.length rest (Nat.le_refl _))

/-- A section at the head of pass 1: replaced according to its flag, the scan
continuing after the closing bracket. -/
theorem processSections_section (values : List (String × String)) (inner post : List Char)
    (hinner : ']' ∉ inner) :
    processSections values ('[' :: (inner ++ ']' :: post))
      = sectionReplace values inner ++ processSections values post := by
  show processSectionsF values ('[' :: (inner ++ ']' :: post)).length _ = _
  simp only [List.length_cons, processSectionsF, if_true, reduceIte]
  rw [splitAtChar_append ']' inner post hinner]
  exact congrArg _ (processSectionsF_fuel values _ post
    (by simp only [List.length_append, List.length_cons]; omega))

theorem takeWhile_word_append (key : List Char) (after : List Char)
    (hkeyw : ∀ c ∈ key, isWordChar c = true) :
    (key ++ '}' :: after).takeWhile isWordChar = key := by
  induction key with
  | nil =>
    have h : isWordChar '}' = false := by decide
    simp [List.takeWhile, h]
  | cons k ks ih =>
    simp only [List.cons_append, List.takeWhile_cons, hkeyw k (by simp), if_true]
    rw [ih fun c hc => hkeyw c (by simp [hc])]

theorem scanStep_match (key after : List Char)
    (hkey : key ≠ []) (hkeyw : ∀ c ∈ key, isWordChar c = true) :
    scanStep (key ++ '}' :: after) = some (key, after) := by
  simp only [scanStep, takeWhile_word_append key after hkeyw]
  rw [List.drop_left]
  simp [List.isEmpty_iff, hkey]

/-- Word characters and the closing brace are literal under pass 2. -/
theorem substPlaceholders_word_run (values : List (String × String))
    (key post : List Char) (hkeyw : ∀ c ∈ key, isWordChar c = true) :
    substPlaceholders values (key ++ '}' :: post)
      = key ++ '}' :: substPlaceholders values post := by
  induction key with
  | nil =>
    simp only [List.nil_append]
    have : ('}' : Char) ≠ '{' := by decide
    simp only [substPlaceholders, this, if_false, reduceIte]
  | cons k ks ih =>
    have hk : isWordChar k = true := hkeyw k (by simp)
    have hkne : k ≠ '{' := by
      intro h
      rw [h] at hk
      exact absurd hk (by decide)
    simp only [List.cons_append, substPlaceholders, hkne, if_false, reduceIte,
      List.append_eq]
    rw [ih fun c hc => hkeyw c (by simp [hc])]

/-- A matched placeholder substitutes its value under pass 2. -/
theorem substPlaceholders_match (values : List (String × String))
    (key post : List Char) (hkey : key ≠ []) (hkeyw : ∀ c ∈ key, isWordChar c = true) :
    substPlaceholders values ('{' :: (key ++ '}' :: post))
      = lookupValue values key ++ substPlaceholders values post := by
  simp only [substPlaceholders, if_true, reduceIte, scanStep_match key post hkey hkeyw]
  rw [substPlaceholders_word_run values key post hkeyw]
  simp

/-- **C7** — Command-template resolution: a bracketed section is included,
with its placeholders substituted, exactly when every placeholder referenced
inside it resolves to a non-empty value, and is otherwise replaced —
literal text included — by the empty string (an unmatched `[` is literal and
a `[` inside a section is plain text: sections do not nest); a placeholder
outside any section whose value is missing or empty substitutes the empty
string; and the whole command resolves by the section pass followed by the
placeholder pass. -/
theorem resolve_command_rules (values : List (String × String)) :
    (∀ pre inner post : List Char, '[' ∉ pre → ']' ∉ inner →
        processSections values (pre ++ '[' :: (inner ++ ']' :: post))
          = pre ++ (if allPresent values inner then substPlaceholders values inner else [])
              ++ processSections values post) ∧
    (∀ key post : List Char, key ≠ [] → (∀ c ∈ key, isWordChar c = true) →
        lookupValue values key = [] →
        substPlaceholders values ('{' :: (key ++ '}' :: post))
          = substPlaceholders values post) ∧
    (∀ template : String,
        resolveCommand template values
          = String.mk (substPlaceholders values (processSections values template.data))) := by
  refine ⟨?_, ?_, fun _ => rfl⟩
  case refine_2 =>
    intro key post hkey hkeyw hmiss
    rw [substPlaceholders_match values key post hkey hkeyw, hmiss, List.nil_append]
  · intro pre inner post hpre hinner
    have hsec : sectionReplace values inner
        = if allPresent values inner then substPlaceholders values inner else [] := by
      rw [sectionReplace, substInnerScan_snd, substInnerScan_fst]
    induction pre with
    | nil =>
      simp only [List.nil_append]
      rw [processSections_section values inner post hinner, hsec]
    | cons c pre' ih =>
      simp only [List.mem_cons] at hpre
      push_neg at hpre
      rw [List.cons_append, processSections_cons values c _ (Ne.symm hpre.1), ih hpre.2,
        List.cons_append, List.cons_append]

/-- Witness for C7: `code [--goto {filePath}:{line}] {packageName}` with an
empty `line` — the whole section vanishes while the outside placeholder still
substitutes. -/
theorem resolve_command_rules_witness :
    processSections [("filePath", "a.js"), ("line", ""), ("packageName", "pkg")]
        ((['c', 'o', 'd', 'e', ' '] : List Char)
          ++ '[' :: ((['-', '-', 'g', 'o', 't', 'o', ' ', '{', 'f', 'i', 'l', 'e',
              'P', 'a', 't', 'h', '}', ':', '{', 'l', 'i', 'n', 'e', '}'] : List Char)
            ++ ']' :: ([' ', '{', 'p', 'k', 'g', '}'] : List Char)))
      = (['c', 'o', 'd', 'e', ' '] : List Char)
        ++ (if allPresent [("filePath", "a.js"), ("line", ""), ("packageName", "pkg")]
              (['-', '-', 'g', 'o', 't', 'o', ' ', '{', 'f', 'i', 'l', 'e',
                'P', 'a', 't', 'h', '}', ':', '{', 'l', 'i', 'n', 'e', '}'] : List Char)
            then substPlaceholders [("filePath", "a.js"), ("line", ""), ("packageName", "pkg")]
              (['-', '-', 'g', 'o', 't', 'o', ' ', '{', 'f', 'i', 'l', 'e',
                'P', 'a', 't', 'h', '}', ':', '{', 'l', 'i', 'n', 'e', '}'] : List Char)
            else [])
        ++ processSections [("filePath", "a.js"), ("line", ""), ("packageName", "pkg")]
            ([' ', '{', 'p', 'k', 'g', '}'] : List Char) :=
  (resolve_command_rules [("filePath", "a.js"), ("line", ""), ("packageName", "pkg")]).1
    ['c', 'o', 'd', 'e', ' ']
    ['-', '-', 'g', 'o', 't', 'o', ' ', '{', 'f', 'i', 'l', 'e', 'P', 'a', 't', 'h', '}',
     ':', '{', 'l', 'i', 'n', 'e', '}']
    [' ', '{', 'p', 'k', 'g', '}'] (by decide) (by decide)

/-! ## Claims C1, C2: the run scheduler (`src/views/interactive.js` 832–879,
617–692, 1391–1396)

The scheduling skeleton of `runInteractiveMode`: per-package `status`
(`runPackageTests` sets `'running'` on launch and `'done'` in its `close`
handler, before invoking the completion hook), the `childProcesses` map
(embedded as a per-package count of live child processes), the
`pendingReruns` set, and the `pendingRunAll` flag.  `started` counts how
often a package's run was launched.  `hook` records which completion callback
the latest launch was wired with: `runAllNow` and the initial startup run
pass `(p) => { onPkgComplete(p); checkPendingRunAll(); }` (`withCheck`),
while `runPkg` and the requeue inside `onPkgComplete` pass plain
`onPkgComplete`.  The result fields of `RunState` (counters, parsed reports)
play no role in scheduling and are not modelled. -/

inductive RStatus
  | pending
  | running
  | done
deriving DecidableEq, Repr

/-- Completion wiring of a launch. -/
inductive Hook
  | plain
  | withCheck
deriving DecidableEq, Repr

structure SchedState where
  status : String → RStatus
  live : String → Nat
  started : String → Nat
  hook : String → Hook
  pendingReruns : List String
  pendingRunAll : Bool

/-- `Set.prototype.add`: JS sets ignore duplicates, appending new members. -/
def addSet (x : String) (l : List String) : List String :=
  if x ∈ l then l else l ++ [x]

/-- The launch inside `runPackageTests`: status `'running'`, a new child
process, the completion hook wired to this run. -/
def launch (h : Hook) (p : String) (s : SchedState) : SchedState :=
  { s with
    status := fun q => if q = p then .running else s.status q,
    live := fun q => if q = p then s.live q + 1 else s.live q,
    started := fun q => if q = p then s.started q + 1 else s.started q,
    hook := fun q => if q = p then h else s.hook q }

/-- `runPkg` (interactive.js 832–841): a running package is queued into
`pendingReruns`, otherwise `runPackageTests` is called with `onPkgComplete`. -/
def runPkg (p : String) (s : SchedState) : SchedState :=
  if s.status p = .running then { s with pendingReruns := addSet p s.pendingReruns }
  else launch .plain p s

/-- `runAllNow` (861–869): every package launched with the checking hook. -/
def runAllNow (pkgs : List String) (s : SchedState) : SchedState :=
  pkgs.foldl (fun acc p => launch .withCheck p acc) s

/-- `runAll` (871–879): defer behind running packages, else run all now. -/
def runAllOp (pkgs : List String) (s : SchedState) : SchedState :=
  if pkgs.any fun p => decide (s.status p = .running) then
    { s with pendingRunAll := true }
  else runAllNow pkgs s

/-- `onPkgComplete` (843–850): a pending run-all suppresses the individual
queue drain; otherwise a queued package is removed and relaunched (again with
the plain hook). -/
def onPkgComplete (p : String) (s : SchedState) : SchedState :=
  if s.pendingRunAll then s
  else if p ∈ s.pendingReruns then
    launch .plain p { s with pendingReruns := s.pendingReruns.erase p }
  else s

/-- `checkPendingRunAll` (852–859): once no package is running, clear the
flag and the queue and run everything. -/
def checkPendingRunAll (pkgs : List String) (s : SchedState) : SchedState :=
  if !s.pendingRunAll then s
  else if pkgs.all fun p => decide (s.status p ≠ .running) then
    runAllNow pkgs { s with pendingRunAll := false, pendingReruns := [] }
  else s

/-- The `close` handler of `runPackageTests` (666–690): status `'done'`, the
child removed, then the completion hook of this run. -/
def complete (pkgs : List String) (p : String) (s : SchedState) : SchedState :=
  let s1 : SchedState := { s with
    status := fun q => if q = p then .done else s.status q,
    live := fun q => if q = p then s.live q - 1 else s.live q }
  match s.hook p with
  | .plain => onPkgComplete p s1
  | .withCheck => checkPendingRunAll pkgs (onPkgComplete p s1)

/-- External scheduler events: a single-package run request (rerun key,
coverage rerun, per-package watch event), a run-all request (key, `*` watch
trigger, startup), and a child-process exit. -/
inductive SchedEv
  | reqRun (p : String)
  | reqRunAll
  | procExit (p : String)

def stepEv (pkgs : List String) : SchedEv → SchedState → SchedState
  | .reqRun p, s => runPkg p s
  | .reqRunAll, s => runAllOp pkgs s
  | .procExit p, s => complete pkgs p s

/-- An event can fire: run requests target known packages; a process exit
needs a live child. -/
def evEnabled (pkgs : List String) : SchedEv → SchedState → Prop
  | .reqRun p, _ => p ∈ pkgs
  | .reqRunAll, _ => True
  | .procExit p, s => 1 ≤ s.live p

def initSched : SchedState :=
  { status := fun _ => .pending, live := fun _ => 0, started := fun _ => 0,
    hook := fun _ => .plain, pendingReruns := [], pendingRunAll := false }

/-- States reachable from startup by enabled events. -/
inductive Reach (pkgs : List String) : SchedState → Prop
  | init : Reach pkgs initSched
  | step {s : SchedState} {e : SchedEv} :
      Reach pkgs s → evEnabled pkgs e s → Reach pkgs (stepEv pkgs e s)

/-- A concrete event trace from startup. -/
def runTrace (pkgs : List String) (evs : List SchedEv) : SchedState :=
  evs.foldl (fun s e => stepEv pkgs e s) initSched

/-- Scheduler invariant: exactly one live child per running package, none
otherwise; the rerun queue holds no duplicates. -/
def SchedInv (s : SchedState) : Prop :=
  (∀ p, s.live p = if s.status p = .running then 1 else 0) ∧ s.pendingReruns.Nodup

/-! Effect of `runAllNow` on each component. -/

theorem runAllNow_status (pkgs : List String) (s : SchedState) (q : String) :
    (runAllNow pkgs s).status q = if q ∈ pkgs then .running else s.status q := by
  induction pkgs generalizing s with
  | nil => simp [runAllNow]
  | cons p ps ih =>
    have hstep : runAllNow (p :: ps) s = runAllNow ps (launch .withCheck p s) := by
      simp [runAllNow, List.foldl_cons]
    rw [hstep, ih]
    by_cases hq : q ∈ ps
    · simp [hq]
    · by_cases hqp : q = p <;> simp [hq, hqp, launch]

theorem runAllNow_hook (pkgs : List String) (s : SchedState) (q : String) :
    (runAllNow pkgs s).hook q = if q ∈ pkgs then .withCheck else s.hook q := by
  induction pkgs generalizing s with
  | nil => simp [runAllNow]
  | cons p ps ih =>
    have hstep : runAllNow (p :: ps) s = runAllNow ps (launch .withCheck p s) := by
      simp [runAllNow, List.foldl_cons]
    rw [hstep, ih]
    by_cases hq : q ∈ ps
    · simp [hq]
    · by_cases hqp : q = p <;> simp [hq, hqp, launch]

theorem runAllNow_started (pkgs : List String) (hnd : pkgs.Nodup) (s : SchedState)
    (q : String) :
    (runAllNow pkgs s).started q = if q ∈ pkgs then s.started q + 1 else s.started q := by
  induction pkgs generalizing s with
  | nil => simp [runAllNow]
  | cons p ps ih =>
    simp only [List.nodup_cons] at hnd
    have hstep : runAllNow (p :: ps) s = runAllNow ps (launch .withCheck p s) := by
      simp [runAllNow, List.foldl_cons]
    rw [hstep, ih hnd.2]
    by_cases hq : q ∈ ps
    · have hqp : q ≠ p := fun h => hnd.1 (h ▸ hq)
      simp [hq, hqp, launch]
    · by_cases hqp : q = p <;> simp [hq, hqp, launch, hnd.1]

theorem runAllNow_live (pkgs : List String) (hnd : pkgs.Nodup) (s : SchedState)
    (q : String) :
    (runAllNow pkgs s).live q = if q ∈ pkgs then s.live q + 1 else s.live q := by
  induction pkgs generalizing s with
  | nil => simp [runAllNow]
  | cons p ps ih =>
    simp only [List.nodup_cons] at hnd
    have hstep : runAllNow (p :: ps) s = runAllNow ps (launch .withCheck p s) := by
      simp [runAllNow, List.foldl_cons]
    rw [hstep, ih hnd.2]
    by_cases hq : q ∈ ps
    · have hqp : q ≠ p := fun h => hnd.1 (h ▸ hq)
      simp [hq, hqp, launch]
    · by_cases hqp : q = p <;> simp [hq, hqp, launch, hnd.1]

theorem runAllNow_pendingReruns (pkgs : List String) (s : SchedState) :
    (runAllNow pkgs s).pendingReruns = s.pendingReruns := by
  induction pkgs generalizing s with
  | nil => rfl
  | cons p ps ih =>
    have hstep : runAllNow (p :: ps) s = runAllNow ps (launch .withCheck p s) := by
      simp [runAllNow, List.foldl_cons]
    rw [hstep, ih]
    rfl

theorem runAllNow_pendingRunAll (pkgs : List String) (s : SchedState) :
    (runAllNow pkgs s).pendingRunAll = s.pendingRunAll := by
  induction pkgs generalizing s with
  | nil => rfl
  | cons p ps ih =>
    have hstep : runAllNow (p :: ps) s = runAllNow ps (launch .withCheck p s) := by
      simp [runAllNow, List.foldl_cons]
    rw [hstep, ih]
    rfl

/-! Invariant preservation. -/

theorem inv_launch (h : Hook) (p : String) (s : SchedState)
    (hs : s.status p ≠ .running) (hinv : SchedInv s) : SchedInv (launch h p s) := by
  obtain ⟨hl, hn⟩ := hinv
  refine ⟨fun q => ?_, hn⟩
  by_cases hq : q = p
  · subst hq
    simp [launch, hl q, hs]
  · simp [launch, hq, hl q]

theorem inv_runAllNow (pkgs : List String) (hnd : pkgs.Nodup) (s : SchedState)
    (hall : ∀ p ∈ pkgs, s.status p ≠ .running) (hinv : SchedInv s) :
    SchedInv (runAllNow pkgs s) := by
  obtain ⟨hl, hn⟩ := hinv
  refine ⟨fun q => ?_, by rw [runAllNow_pendingReruns]; exact hn⟩
  rw [runAllNow_live pkgs hnd s q, runAllNow_status pkgs s q]
  by_cases hq : q ∈ pkgs
  · simp [hq, hl q, hall q hq]
  · simp [hq, hl q]

theorem inv_onPkgComplete (p : String) (s : SchedState) (hs : s.status p ≠ .running)
    (hinv : SchedInv s) : SchedInv (onPkgComplete p s) := by
  obtain ⟨hl, hn⟩ := hinv
  rw [onPkgComplete]
  split_ifs with h1 h2
  · exact ⟨hl, hn⟩
  · exact inv_launch _ _ _ hs ⟨hl, hn.erase p⟩
  · exact ⟨hl, hn⟩

theorem inv_checkPendingRunAll (pkgs : List String) (hnd : pkgs.Nodup) (s : SchedState)
    (hinv : SchedInv s) : SchedInv (checkPendingRunAll pkgs s) := by
  obtain ⟨hl, hn⟩ := hinv
  rw [checkPendingRunAll]
  split_ifs with h1 h2
  · exact ⟨hl, hn⟩
  · refine inv_runAllNow pkgs hnd _ ?_ ⟨hl, List.nodup_nil⟩
    intro p hp
    simpa using of_decide_eq_true (List.all_eq_true.mp h2 p hp)
  · exact ⟨hl, hn⟩

theorem addSet_nodup (x : String) (l : List String) (h : l.Nodup) : (addSet x l).Nodup := by
  rw [addSet]
  split_ifs with hmem
  · exact h
  · refine List.nodup_append.mpr ⟨h, by simp, ?_⟩
    intro a ha hax
    simp only [List.mem_singleton] at hax
    exact hmem (hax ▸ ha)

theorem inv_complete (pkgs : List String) (hnd : pkgs.Nodup) (p : String) (s : SchedState)
    (hinv : SchedInv s) : SchedInv (complete pkgs p s) := by
  obtain ⟨hl, hn⟩ := hinv
  have hinv1 : SchedInv { s with
      status := fun q => if q = p then .done else s.status q,
      live := fun q => if q = p then s.live q - 1 else s.live q } := by
    refine ⟨fun q => ?_, hn⟩
    by_cases hq : q = p
    · subst hq
      have hlq := hl q
      by_cases hr : s.status q = .running <;> simp [hr, hlq]
    · simp [hq, hl q]
  have hs1 : ({ s with
      status := fun q => if q = p then .done else s.status q,
      live := fun q => if q = p then s.live q - 1 else s.live q } : SchedState).status p
        ≠ .running := by
    simp
  cases hh : s.hook p with
  | plain =>
    have : complete pkgs p s = onPkgComplete p { s with
        status := fun q => if q = p then .done else s.status q,
        live := fun q => if q = p then s.live q - 1 else s.live q } := by
      simp only [complete, hh]
    rw [this]
    exact inv_onPkgComplete p _ hs1 hinv1
  | withCheck =>
    have : complete pkgs p s = checkPendingRunAll pkgs (onPkgComplete p { s with
        status := fun q => if q = p then .done else s.status q,
        live := fun q => if q = p then s.live q - 1 else s.live q }) := by
      simp only [complete, hh]
    rw [this]
    exact inv_checkPendingRunAll pkgs hnd _ (inv_onPkgComplete p _ hs1 hinv1)

/-- Every reachable scheduler state satisfies the invariant: in particular,
never more than one live child process per package. -/
theorem reach_inv (pkgs : List String) (hnd : pkgs.Nodup) {s : SchedState}
    (hr : Reach pkgs s) : SchedInv s := by
  induction hr with
  | init =>
    refine ⟨fun p => ?_, List.nodup_nil⟩
    simp [initSched]
  | @step s' e hr' hen ih =>
    cases e with
    | reqRun p =>
      show SchedInv (runPkg p s')
      rw [runPkg]
      split_ifs with h1
      · exact ⟨ih.1, addSet_nodup p _ ih.2⟩
      · exact inv_launch _ _ _ h1 ih
    | reqRunAll =>
      show SchedInv (runAllOp pkgs s')
      rw [runAllOp]
      split_ifs with h1
      · exact ⟨ih.1, ih.2⟩
      · refine inv_runAllNow pkgs hnd s' (fun p hp hc => ?_) ih
        exact h1 (List.any_eq_true.mpr ⟨p, hp, by simp [hc]⟩)
    | procExit p =>
      exact inv_complete pkgs hnd p s' ih

/-- **C1 (counterexample to the claim as stated)** — package `a` is running
because of a single-package rerun request (completion hook `onPkgComplete`
only); `runAll` defers; when the run completes, every package is non-running,
yet no fresh run is started: `started` stays `1`, the package is `done`, and
`pendingRunAll` is stuck `true` (nothing ever calls `checkPendingRunAll`).
Every event of the trace is enabled: `"a" ∈ pkgs` for the requests, and one
child is live at the exit. -/
theorem run_all_lost_behind_single_rerun :
    (runTrace ["a"] [.reqRun "a", .reqRunAll, .procExit "a"]).status "a" = .done ∧
    (runTrace ["a"] [.reqRun "a", .reqRunAll, .procExit "a"]).pendingRunAll = true ∧
    (runTrace ["a"] [.reqRun "a", .reqRunAll, .procExit "a"]).started "a" = 1 := by
  decide

/-- **C1 (amended)** — `runAll` while some package runs only sets
`pendingRunAll`; and when the last running package completes a run that was
launched by `runAllNow` or the initial startup run (completion hook
`withCheck`), the flag and the rerun queue are cleared and exactly one fresh
run per package is started.  (When the in-flight run was started by a
single-package rerun or a per-package watch event, its completion hook never
checks the flag — see the counterexample.) -/
theorem run_all_defer_and_fire (pkgs : List String) (hnd : pkgs.Nodup) (s : SchedState) :
    ((pkgs.any fun p => decide (s.status p = .running)) = true →
      runAllOp pkgs s = { s with pendingRunAll := true }) ∧
    (∀ p, s.pendingRunAll = true → s.status p = .running → s.hook p = .withCheck →
      (∀ q ∈ pkgs, q ≠ p → s.status q ≠ .running) →
      (complete pkgs p s).pendingRunAll = false ∧
      (complete pkgs p s).pendingReruns = [] ∧
      ∀ q ∈ pkgs, (complete pkgs p s).started q = s.started q + 1 ∧
        (complete pkgs p s).status q = .running) := by
  constructor
  · intro h
    rw [runAllOp, if_pos h]
  · intro p hflag hrun hhook hothers
    have hcompl : complete pkgs p s
        = checkPendingRunAll pkgs (onPkgComplete p { s with
            status := fun q => if q = p then RStatus.done else s.status q,
            live := fun q => if q = p then s.live q - 1 else s.live q }) := by
      simp only [complete, hhook]
    have honc : onPkgComplete p { s with
          status := fun q => if q = p then RStatus.done else s.status q,
          live := fun q => if q = p then s.live q - 1 else s.live q }
        = { s with
            status := fun q => if q = p then RStatus.done else s.status q,
            live := fun q => if q = p then s.live q - 1 else s.live q } := by
      rw [onPkgComplete, if_pos hflag]
    have hallidle : (pkgs.all fun q => decide (({ s with
          status := fun q => if q = p then RStatus.done else s.status q,
          live := fun q => if q = p then s.live q - 1 else s.live q } : SchedState).status q
            ≠ .running)) = true := by
      refine List.all_eq_true.mpr fun q hq => decide_eq_true ?_
      by_cases hqp : q = p
      · simp [hqp]
      · simp only [hqp, if_false, reduceIte]
        exact hothers q hq hqp
    have hchk : checkPendingRunAll pkgs { s with
          status := fun q => if q = p then RStatus.done else s.status q,
          live := fun q => if q = p then s.live q - 1 else s.live q }
        = runAllNow pkgs { s with
            status := fun q => if q = p then RStatus.done else s.status q,
            live := fun q => if q = p then s.live q - 1 else s.live q,
            pendingRunAll := false, pendingReruns := [] } := by
      rw [checkPendingRunAll, if_neg (by simp [hflag]), if_pos hallidle]
    rw [hcompl, honc, hchk]
    refine ⟨?_, ?_, fun q hq => ⟨?_, ?_⟩⟩
    · rw [runAllNow_pendingRunAll]
    · rw [runAllNow_pendingReruns]
    · rw [runAllNow_started pkgs hnd _ q]
      simp [hq]
    · rw [runAllNow_status pkgs _ q]
      simp [hq]

/-- A state in which `a` runs with the checking hook while a run-all is
pending and a stale queue entry exists. -/
def deferredRunAllState : SchedState :=
  { status := fun q => if q = "a" then .running else .pending,
    live := fun q => if q = "a" then 1 else 0,
    started := fun q => if q = "a" then 1 else 0,
    hook := fun _ => .withCheck,
    pendingReruns := ["b"],
    pendingRunAll := true }

/-- Witness for the amended C1: completing `a` fires the deferred run-all,
clearing the flag and the queue and starting one fresh run per package. -/
theorem run_all_defer_and_fire_witness :
    (complete ["a", "b"] "a" deferredRunAllState).pendingRunAll = false ∧
    (complete ["a", "b"] "a" deferredRunAllState).pendingReruns = [] ∧
    ∀ q ∈ ["a", "b"], (complete ["a", "b"] "a" deferredRunAllState).started q
        = deferredRunAllState.started q + 1 ∧
      (complete ["a", "b"] "a" deferredRunAllState).status q = .running :=
  (run_all_defer_and_fire ["a", "b"] (by decide) deferredRunAllState).2 "a"
    (by decide) (by decide) (by decide) (by decide)

/-- **C2 (counterexample to the claim as stated)** — a rerun of running `a`
is queued, then `runAll` is requested and defers.  When `a`'s run completes,
the completion callback returns immediately (`pendingRunAll` suppresses the
drain): the deferred rerun is never started — `started` stays `1`, `a` stays
queued, and the package is `done`.  Every event of the trace is enabled. -/
theorem queued_rerun_suppressed_by_pending_run_all :
    (runTrace ["a", "b"] [.reqRun "a", .reqRun "a", .reqRunAll, .procExit "a"]).status "a"
      = .done ∧
    (runTrace ["a", "b"] [.reqRun "a", .reqRun "a", .reqRunAll, .procExit "a"]).started "a"
      = 1 ∧
    "a" ∈ (runTrace ["a", "b"] [.reqRun "a", .reqRun "a", .reqRunAll,
      .procExit "a"]).pendingReruns ∧
    (runTrace ["a", "b"] [.reqRun "a", .reqRun "a", .reqRunAll,
      .procExit "a"]).pendingRunAll = true := by
  decide

/-- **C2 (amended)** — In every reachable scheduler state: at most one live
child process per package; requesting a rerun of a running package only adds
its name to `pendingReruns` (no second process); and provided no run-all is
pending when the current run's completion callback fires, the queued rerun is
started exactly once, immediately, by that callback — the package runs again,
its launch count rises by exactly one, no other package is launched, and the
name leaves the queue.  (With a run-all pending the drain is suppressed — see
the counterexample.) -/
theorem rerun_queue_discipline (pkgs : List String) (hnd : pkgs.Nodup) (s : SchedState)
    (hr : Reach pkgs s) (p : String) :
    s.live p ≤ 1 ∧
    (s.status p = .running →
      runPkg p s = { s with pendingReruns := addSet p s.pendingReruns }) ∧
    (s.status p = .running → s.pendingRunAll = false → p ∈ s.pendingReruns →
      (complete pkgs p s).started p = s.started p + 1 ∧
      (complete pkgs p s).status p = .running ∧
      p ∉ (complete pkgs p s).pendingReruns ∧
      ∀ q, q ≠ p → (complete pkgs p s).started q = s.started q) := by
  obtain ⟨hl, hn⟩ := reach_inv pkgs hnd hr
  refine ⟨?_, ?_, ?_⟩
  · rw [hl p]
    split_ifs <;> omega
  · intro h1
    rw [runPkg, if_pos h1]
  · intro h1 h2 h3
    have honc : onPkgComplete p { s with
          status := fun q => if q = p then RStatus.done else s.status q,
          live := fun q => if q = p then s.live q - 1 else s.live q }
        = launch .plain p { s with
            status := fun q => if q = p then RStatus.done else s.status q,
            live := fun q => if q = p then s.live q - 1 else s.live q,
            pendingReruns := s.pendingReruns.erase p } := by
      rw [onPkgComplete, if_neg (by simp [h2]), if_pos h3]
    have hflag2 : (launch .plain p { s with
          status := fun q => if q = p then RStatus.done else s.status q,
          live := fun q => if q = p then s.live q - 1 else s.live q,
          pendingReruns := s.pendingReruns.erase p }).pendingRunAll = false := h2
    have hgoal : ∀ s2 : SchedState, s2 = launch .plain p { s with
          status := fun q => if q = p then RStatus.done else s.status q,
          live := fun q => if q = p then s.live q - 1 else s.live q,
          pendingReruns := s.pendingReruns.erase p } →
        s2.started p = s.started p + 1 ∧ s2.status p = .running ∧
        p ∉ s2.pendingReruns ∧ ∀ q, q ≠ p → s2.started q = s.started q := by
      intro s2 hs2
      subst hs2
      refine ⟨by simp [launch], by simp [launch], ?_, fun q hq => by simp [launch, hq]⟩
      show p ∉ s.pendingReruns.erase p
      exact hn.not_mem_erase
    cases hh : s.hook p with
    | plain =>
      have hcompl : complete pkgs p s = launch .plain p { s with
          status := fun q => if q = p then RStatus.done else s.status q,
          live := fun q => if q = p then s.live q - 1 else s.live q,
          pendingReruns := s.pendingReruns.erase p } := by
        rw [show complete pkgs p s = onPkgComplete p { s with
            status := fun q => if q = p then RStatus.done else s.status q,
            live := fun q => if q = p then s.live q - 1 else s.live q } from by
          simp only [complete, hh], honc]
      rw [hcompl]
      exact hgoal _ rfl
    | withCheck =>
      have hcompl : complete pkgs p s = launch .plain p { s with
          status := fun q => if q = p then RStatus.done else s.status q,
          live := fun q => if q = p then s.live q - 1 else s.live q,
          pendingReruns := s.pendingReruns.erase p } := by
        rw [show complete pkgs p s = checkPendingRunAll pkgs (onPkgComplete p { s with
            status := fun q => if q = p then RStatus.done else s.status q,
            live := fun q => if q = p then s.live q - 1 else s.live q }) from by
          simp only [complete, hh], honc, checkPendingRunAll, if_pos (by simp [hflag2])]
      rw [hcompl]
      exact hgoal _ rfl

/-- Witness for the amended C2: after launching `a` and queuing a rerun of it
(a reachable trace of enabled events), `a`'s completion immediately starts
the queued rerun exactly once. -/
theorem rerun_queue_discipline_witness :
    (complete ["a"] "a" (runTrace ["a"] [.reqRun "a", .reqRun "a"])).started "a"
      = (runTrace ["a"] [.reqRun "a", .reqRun "a"]).started "a" + 1 ∧
    (complete ["a"] "a" (runTrace ["a"] [.reqRun "a", .reqRun "a"])).status "a"
      = .running ∧
    "a" ∉ (complete ["a"] "a" (runTrace ["a"] [.reqRun "a", .reqRun "a"])).pendingReruns ∧
    ∀ q, q ≠ "a" →
      (complete ["a"] "a" (runTrace ["a"] [.reqRun "a", .reqRun "a"])).started q
        = (runTrace ["a"] [.reqRun "a", .reqRun "a"]).started q := by
  have h1 : Reach ["a"] (stepEv ["a"] (.reqRun "a") initSched) :=
    Reach.step Reach.init (by simp [evEnabled])
  have h2 : Reach ["a"]
      (stepEv ["a"] (.reqRun "a") (stepEv ["a"] (.reqRun "a") initSched)) :=
    Reach.step h1 (by simp [evEnabled])
  exact (rerun_queue_discipline ["a"] (by decide) _ h2 "a").2.2
    (by decide) (by decide) (by decide)

/-! ## Claim C3: the JUnit test-report parser (`src/parsers.js` 108–413)

A hand-rolled scan over the XML text.  All string searching is re-implemented
by structural recursion over the character list; positions are byte offsets
into the scanned list, as in the source.  `duration = parseFloat(time)` is a
JS float; the raw `time` attribute is carried instead (no claim concerns the
numeric value). -/

/-- `haystack.includes(needle)`. -/
def containsSub (pat : List Char) : List Char → Bool
  | [] => pat.isEmpty
  | c :: rest => listStartsWith pat (c :: rest) || containsSub pat rest

/-- First occurrence of `pat` in `s` at an index `≥ start` (JS
`indexOf(pat, start)`; `none` is `-1`). -/
def indexOfAux (pat : List Char) : List Char → Nat → Option Nat
  | [], i => if pat.isEmpty then some i else none
  | c :: rest, i =>
    if listStartsWith pat (c :: rest) then some i else indexOfAux pat rest (i + 1)

def indexOfFrom (pat s : List Char) (start : Nat) : Option Nat :=
  (indexOfAux pat (s.drop start) 0).map (· + start)

/-- Last occurrence of `pat` in `s` at an index `≥ start` (the greedy
`([\s\S]*)` group binds the final closing tag). -/
def lastIndexOfAux (pat : List Char) : List Char → Nat → Option Nat → Option Nat
  | [], _, best => best
  | c :: rest, i, best =>
    lastIndexOfAux pat rest (i + 1)
      (if listStartsWith pat (c :: rest) then some i else best)

def lastIndexOfFrom (pat s : List Char) (start : Nat) : Option Nat :=
  (lastIndexOfAux pat (s.drop start) 0 none).map (· + start)

/-- `xml.substring(a, b)` for `a ≤ b`. -/
def substringL (s : List Char) (a b : Nat) : List Char :=
  (s.drop a).take (b - a)

/-- JS `String.prototype.endsWith`. -/
def listEndsWith (s pat : List Char) : Bool :=
  if pat.length ≤ s.length then listStartsWith pat (s.drop (s.length - pat.length))
  else false

def strEndsWith (s pat : String) : Bool :=
  listEndsWith s.data pat.data

/-- JS `\s` (the ASCII part, all that the scanned reports contain). -/
def isJsSpace (c : Char) : Bool :=
  c == ' ' || c == '\t' || c == '\n' || c == '\r' || c == '\x0b' || c == '\x0c'

/-- JS `String.prototype.trim`. -/
def trimL (s : List Char) : List Char :=
  ((s.dropWhile isJsSpace).reverse.dropWhile isJsSpace).reverse

/-- One literal replacement pass of `String.prototype.replace(/pat/g, rep)`,
fuelled (the jump over a match is not structural). -/
def replaceAllF (pat rep : List Char) : Nat → List Char → List Char
  | 0, s => s
  | _, [] => []
  | fuel + 1, c :: rest =>
    if !pat.isEmpty && listStartsWith pat (c :: rest) then
      rep ++ replaceAllF pat rep fuel ((c :: rest).drop pat.length)
    else c :: replaceAllF pat rep fuel rest

def replaceAllL (pat rep s : List Char) : List Char :=
  replaceAllF pat rep s.length s

/-- The apostrophe character. -/
def aposChar : Char := Char.ofNat 39

/-- `decodeXmlEntities` (parsers.js 111–123): one layer of double-escaping
decoded before single escaping, in the source's exact order. -/
def decodeXmlEntitiesL (s : List Char) : List Char :=
  let s1 := replaceAllL "&amp;gt;".data ">".data s
  let s2 := replaceAllL "&amp;lt;".data "<".data s1
  let s3 := replaceAllL ("&amp;apos;".data) [aposChar] s2
  let s4 := replaceAllL "&amp;quot;".data "\"".data s3
  let s5 := replaceAllL "&amp;amp;".data "&".data s4
  let s6 := replaceAllL "&gt;".data ">".data s5
  let s7 := replaceAllL "&lt;".data "<".data s6
  let s8 := replaceAllL "&apos;".data [aposChar] s7
  let s9 := replaceAllL "&quot;".data "\"".data s8
  replaceAllL "&amp;".data "&".data s9

/-- Try to match `name=["']([^"']*)["']` at the head of `l`. -/
def attrValAt (name : List Char) (l : List Char) : Option (List Char) :=
  if listStartsWith (name ++ ['=']) l then
    match l.drop (name.length + 1) with
    | q :: rest =>
      if q == '"' || q == aposChar then
        let content := rest.takeWhile (fun c => !(c == '"' || c == aposChar))
        match rest.drop content.length with
        | q2 :: _ => if q2 == '"' || q2 == aposChar then some content else none
        | [] => none
      else none
    | [] => none
  else none

/-- The scan of `getAttr`'s regex `(?:^|\s)name=["']([^"']*)["']`: the
attribute may start at the beginning of the tag or after a whitespace
character; the first match wins. -/
def getAttrAux (name : List Char) : Bool → List Char → Option (List Char)
  | _, [] => none
  | boundary, c :: rest =>
    match (if boundary then attrValAt name (c :: rest) else none) with
    | some v => some v
    | none => getAttrAux name (isJsSpace c) rest

/-- `getAttr(tag, name)` (parsers.js 128–133): extract and entity-decode an
attribute, `''` when absent. -/
def getAttrL (tag : List Char) (name : String) : String :=
  match getAttrAux name.data true tag with
  | some v => String.mk (decodeXmlEntitiesL v)
  | none => ""

/-- The `message=["']([^"']*)["']` group of the failure regex — no word
boundary there. -/
def findAttrAnywhere (name : List Char) : List Char → Option (List Char)
  | [] => none
  | c :: rest =>
    match attrValAt name (c :: rest) with
    | some v => some v
    | none => findAttrAnywhere name rest

/-- One parsed test: status is `'passed' | 'failed' | 'skipped'`. -/
structure TestRec where
  name : String
  status : String
  time : String
  failureMessage : String
deriving DecidableEq, Repr

/-- One suite, keyed by resolved file path (parsers.js 402–413). -/
structure SuiteRec where
  name : String
  file : String
  tests : List TestRec
deriving DecidableEq, Repr

/-- The file-path test applied to suite and testcase attributes (parsers.js
242 and 366): a path separator or a known source-file extension. -/
def isFilePathAttr (s : String) : Bool :=
  containsSub ['/'] s.data || strEndsWith s ".ts" || strEndsWith s ".js" ||
  strEndsWith s ".tsx" || strEndsWith s ".jsx"

/-- `findClosingTag`'s loop (parsers.js 268–303), fuelled; every iteration
advances `pos`.  Returns `(content, endPos)` of the matching close tag,
skipping self-closing same-name tags and tracking nesting depth. -/
def findClosingTagF (xml openPat closePat : List Char) (startPos : Nat) :
    Nat → Nat → Nat → Option (List Char × Nat)
  | 0, _, _ => none
  | fuel + 1, pos, depth =>
    if !(decide (pos < xml.length) && decide (0 < depth)) then none
    else
      match indexOfFrom closePat xml pos with
      | none => none
      | some nextClose =>
        match indexOfFrom openPat xml pos with
        | some nextOpen =>
          if nextOpen < nextClose then
            match indexOfFrom ['>'] xml nextOpen with
            | some tagEnd =>
              if (xml.drop (tagEnd - 1)).head? = some '/' then
                findClosingTagF xml openPat closePat startPos fuel (tagEnd + 1) depth
              else
                findClosingTagF xml openPat closePat startPos fuel
                  (nextOpen + openPat.length) (depth + 1)
            | none =>
              findClosingTagF xml openPat closePat startPos fuel
                (nextOpen + openPat.length) (depth + 1)
          else
            if depth - 1 = 0 then
              some (substringL xml startPos nextClose, nextClose + closePat.length)
            else
              findClosingTagF xml openPat closePat startPos fuel
                (nextClose + closePat.length) (depth - 1)
        | none =>
          if depth - 1 = 0 then
            some (substringL xml startPos nextClose, nextClose + closePat.length)
          else
            findClosingTagF xml openPat closePat startPos fuel
              (nextClose + closePat.length) (depth - 1)

def findClosingTag (xml : List Char) (startPos : Nat) (tagName : List Char) :
    Option (List Char × Nat) :=
  findClosingTagF xml ('<' :: tagName) ('<' :: '/' :: (tagName ++ ['>'])) startPos
    (xml.length + 1) startPos 1

/-- The failure element of a testcase body: the regex
`/<failure[^>]*(?:message=["']([^"']*)["'])?[^>]*>([\s\S]*?)<\/failure>/` —
body text up to the first `</failure>` after the tag's first `>`, falling
back to the `message` attribute when the decoded, trimmed body is empty
(parsers.js 335–341). -/
def failureMessageOf (inner : List Char) : List Char :=
  match indexOfFrom "<failure".data inner 0 with
  | none => []
  | some fi =>
    match indexOfFrom ['>'] inner fi with
    | none => []
    | some gt =>
      match indexOfFrom "</failure>".data inner (gt + 1) with
      | none => []
      | some ci =>
        let body := trimL (decodeXmlEntitiesL (substringL inner (gt + 1) ci))
        if body.isEmpty then
          match findAttrAnywhere "message".data (substringL inner fi (gt + 1)) with
          | some m => decodeXmlEntitiesL m
          | none => []
        else body

/-- `parseTestCase(xml, startPos, parentDescribe)` (parsers.js 309–397):
returns the resolved file, the test record, and the position after the
element. -/
def parseTestCase (xml : List Char) (startPos : Nat) (parentDescribe : String) :
    Option (String × TestRec × Nat) :=
  match indexOfFrom ['>'] xml startPos with
  | none => none
  | some tagEnd =>
    let tag := substringL xml startPos (tagEnd + 1)
    let isSelfClosing := listEndsWith tag "/>".data
    let name := getAttrL tag "name"
    let classname := getAttrL tag "classname"
    let time := getAttrL tag "time"
    let fileAttr := getAttrL tag "file"
    let afterBody : Option (Nat × List Char × Bool) :=
      if isSelfClosing then some (tagEnd + 1, [], false)
      else
        match indexOfFrom "</testcase>".data xml tagEnd with
        | none => none
        | some closeIdx =>
          let inner := substringL xml (tagEnd + 1) closeIdx
          some (closeIdx + "</testcase>".length, failureMessageOf inner,
            containsSub "<skipped".data inner)
    match afterBody with
    | none => none
    | some (endPos, failureMessage, isSkipped) =>
      let status :=
        if !failureMessage.isEmpty then "failed"
        else if isSkipped then "skipped"
        else "passed"
      let classnameIsFile := isFilePathAttr classname
      let file :=
        if classnameIsFile then classname
        else fileAttr
      let fullTestName :=
        if classnameIsFile then name
        else if parentDescribe ≠ "" then parentDescribe ++ " > " ++ name
        else if classname ≠ "" then classname ++ " > " ++ name
        else name
      let resolvedFile :=
        if file ≠ "" then file else if classname ≠ "" then classname else "unknown"
      some (resolvedFile,
        { name := fullTestName, status := status, time := time,
          failureMessage := String.mk failureMessage }, endPos)

/-- `addTestToSuites` (parsers.js 402–413): append to the first suite with
this file, else push a new suite. -/
def addTestToSuites : List SuiteRec → String → TestRec → List SuiteRec
  | [], fileName, t => [{ name := fileName, file := fileName, tests := [t] }]
  | s :: rest, fileName, t =>
    if s.file = fileName then { s with tests := s.tests ++ [t] } :: rest
    else s :: addTestToSuites rest fileName t

/-- `parseTestSuites(xml, parentDescribe, suites)` (parsers.js 195–262),
fuelled over the total number of loop iterations and recursive descents: at
each step the nearer of the next suite-open tag and the next testcase tag is
handled; file-named suites reset the describe path, other suites extend it. -/
def parseTestSuitesF : Nat → List Char → Nat → String → List SuiteRec → List SuiteRec
  | 0, _, _, _, suites => suites
  | fuel + 1, xml, pos, parentDescribe, suites =>
    if xml.length ≤ pos then suites
    else
      match indexOfFrom "<testsuite ".data xml pos, indexOfFrom "<testcase ".data xml pos with
      | none, none => suites
      | suiteStartO, caseStartO =>
        let doCase (caseStart : Nat) : List SuiteRec :=
          match parseTestCase xml caseStart parentDescribe with
          | some (file, test, endPos) =>
            parseTestSuitesF fuel xml endPos parentDescribe
              (addTestToSuites suites file test)
          | none => parseTestSuitesF fuel xml (caseStart + 1) parentDescribe suites
        let doSuite (suiteStart : Nat) : List SuiteRec :=
          match indexOfFrom ['>'] xml suiteStart with
          | none => suites
          | some tagEnd =>
            let tag := substringL xml suiteStart (tagEnd + 1)
            let suiteName := getAttrL tag "name"
            if listEndsWith tag "/>".data then
              parseTestSuitesF fuel xml (tagEnd + 1) parentDescribe suites
            else
              match findClosingTag xml (tagEnd + 1) "testsuite".data with
              | none => suites
              | some (innerContent, endPos) =>
                let isFile := isFilePathAttr suiteName
                let describe :=
                  if isFile then ""
                  else if parentDescribe ≠ "" then parentDescribe ++ " > " ++ suiteName
                  else suiteName
                let suites' := parseTestSuitesF fuel innerContent 0 describe suites
                parseTestSuitesF fuel xml endPos parentDescribe suites'
        match suiteStartO, caseStartO with
        | none, some caseStart => doCase caseStart
        | some suiteStart, none => doSuite suiteStart
        | some suiteStart, some caseStart =>
          if caseStart ≤ suiteStart then doCase caseStart else doSuite suiteStart
        | none, none => suites

/-- `parseJunitFile` after the file has been read (parsers.js 145–189): empty
input and a missing `<testsuites>` wrapper yield `null`; the wrapper match is
`/<testsuites[^>]*>([\s\S]*)<\/testsuites>/` with its greedy body group. -/
def parseJunitContent (xml : String) : Option (List SuiteRec) :=
  if (trimL xml.data).isEmpty then none
  else
    match indexOfFrom "<testsuites".data xml.data 0 with
    | none => none
    | some ts =>
      match indexOfFrom ['>'] xml.data ts with
      | none => none
      | some gt =>
        match lastIndexOfFrom "</testsuites>".data xml.data (gt + 1) with
        | none => none
        | some lc =>
          let content := substringL xml.data (gt + 1) lc
          some (parseTestSuitesF ((content.length + 1) * (content.length + 1))
            content 0 "" [])

set_option maxRecDepth 100000

/-- **C3** — Test-report parsing: a flat-format report whose testcase has
`classname="test/foo.test.ts"` and `name="does X"` yields exactly one suite
with file `test/foo.test.ts` containing exactly one test named `does X`; a
nested-format report with describe suites `outer` containing `inner` and leaf
testcase `works` yields that test named `outer > inner > works` attached to
the suite resolved from the testcase's `file` attribute; and an attribute
counts as a file path exactly when it contains a path separator or ends in a
known source-file extension. -/
theorem junit_parser_formats :
    parseJunitContent "<testsuites><testsuite name=\"test/foo.test.ts\" tests=\"1\"><testcase classname=\"test/foo.test.ts\" name=\"does X\" time=\"0.005\"/></testsuite></testsuites>"
      = some [{ name := "test/foo.test.ts", file := "test/foo.test.ts",
                tests := [{ name := "does X", status := "passed", time := "0.005",
                            failureMessage := "" }] }] ∧
    parseJunitContent "<testsuites><testsuite name=\"test/bar.test.ts\"><testsuite name=\"outer\"><testsuite name=\"inner\"><testcase name=\"works\" file=\"test/bar.test.ts\" time=\"0.001\"/></testsuite></testsuite></testsuite></testsuites>"
      = some [{ name := "test/bar.test.ts", file := "test/bar.test.ts",
                tests := [{ name := "outer > inner > works", status := "passed",
                            time := "0.001", failureMessage := "" }] }] ∧
    (∀ s : String, isFilePathAttr s = true ↔
      (containsSub ['/'] s.data = true ∨ strEndsWith s ".ts" = true ∨
       strEndsWith s ".js" = true ∨ strEndsWith s ".tsx" = true ∨
       strEndsWith s ".jsx" = true)) := by
  refine ⟨by decide, by decide, fun s => ?_⟩
  simp [isFilePathAttr, Bool.or_eq_true, or_assoc]

/-- Witness instantiating the file-path rule of C3 at a concrete attribute. -/
theorem junit_parser_formats_witness :
    isFilePathAttr "foo.test.ts" = true ↔
      (containsSub ['/'] "foo.test.ts".data = true ∨
       strEndsWith "foo.test.ts" ".ts" = true ∨
       strEndsWith "foo.test.ts" ".js" = true ∨
       strEndsWith "foo.test.ts" ".tsx" = true ∨
       strEndsWith "foo.test.ts" ".jsx" = true) :=
  junit_parser_formats.2.2 "foo.test.ts"

end Monotestrunner
